import Mathlib

/-!
# Verification of the lens relationship-graph module

Shallow embedding of `src/lens/graph.py` (classes `LensGraph` and
`GraphEnhancedRetrieval`).  The `networkx.DiGraph` is modelled as a list of
nodes with attributes together with a list of directed edges with attributes,
both kept in insertion order (networkx iterates adjacency and node views in
insertion order).  Python floats are modelled as rationals (`ℚ`); every
weight occurring in the module is a decimal literal or a JSON number, and the
arithmetic performed on them (sums, comparisons, a single division) is exact
at the inputs considered.  Operations that can raise a Python exception are
modelled with `Except Unit`.
-/

namespace LensGraph

/-- Attributes stored on a graph node by `LensGraph._load_lenses`.
`episode` models `int(data['episode'])`: `some e` when the stored episode
string parses as an integer, `none` when the `int` conversion raises (the
builder skips such nodes in the temporal step). -/
structure NodeData where
  name : String
  episode : Option Int
  typ : String
  definition : String
  related_concepts : List String
  deriving Repr, DecidableEq

/-- Attributes stored on a directed edge.  Every edge created by the module
carries `weight` and `type`; `insight` defaults to the empty string, and the
auxiliary attributes (`frame`, `episodes`, `shared_concept`) are not read by
any query, so they are not modelled.  `etype` is the Python `type` key. -/
structure EdgeData where
  weight : ℚ
  etype : String
  insight : String
  deriving Repr, DecidableEq

/-- The `networkx.DiGraph`: nodes with attributes and directed edges with
attributes, in insertion order. -/
structure Graph where
  nodes : List (String × NodeData)
  edges : List (String × String × EdgeData)
  deriving Repr, DecidableEq

/-- Membership test of the DiGraph: a node exists if it was added explicitly
or appears as an endpoint of an edge (networkx `add_edge` silently adds
endpoints). -/
def Graph.hasNode (g : Graph) (v : String) : Bool :=
  g.nodes.any (fun p => p.1 = v) ||
    g.edges.any (fun e => e.1 = v || e.2.1 = v)

/-- `G.has_edge(u, v)` — the directed test used by the builder guards. -/
def Graph.hasEdge (g : Graph) (u v : String) : Bool :=
  g.edges.any (fun e => e.1 = u && e.2.1 = v)

/-- `G.get_edge_data(u, v)` / `G[u][v]`. -/
def Graph.getEdgeData (g : Graph) (u v : String) : Option EdgeData :=
  (g.edges.find? (fun e => e.1 = u && e.2.1 = v)).map (fun e => e.2.2)

/-- `G.add_edge(u, v, ...)`: replaces the attributes in place if the edge
exists (keeping its adjacency position), appends it otherwise. -/
def Graph.addEdge (g : Graph) (u v : String) (d : EdgeData) : Graph :=
  if g.hasEdge u v then
    { g with edges := g.edges.map (fun e => if e.1 = u && e.2.1 = v then (u, v, d) else e) }
  else
    { g with edges := g.edges ++ [(u, v, d)] }

/-- `G.neighbors(u)` = successors, in edge-insertion order. -/
def Graph.successors (g : Graph) (u : String) : List String :=
  (g.edges.filter (fun e => e.1 = u)).map (fun e => e.2.1)

/-- `G.predecessors(v)`, in edge-insertion order. -/
def Graph.predecessors (g : Graph) (v : String) : List String :=
  (g.edges.filter (fun e => e.2.1 = v)).map (fun e => e.1)

/-- Node attributes, `none` for nodes that only exist as edge endpoints. -/
def Graph.dataOf (g : Graph) (v : String) : Option NodeData :=
  (g.nodes.find? (fun p => p.1 = v)).map (fun p => p.2)

/-! ## Stable descending sort

Python's `list.sort(key=k, reverse=True)` / `sorted(..., reverse=True)` is a
stable sort by descending key.  We model it with a left-fold insertion sort
that places each new element after all previously placed elements of
greater-or-equal key, which is stable and sorts descending. -/

/-- Insert `x` after every element whose key is `≥ key x`. -/
def insertDesc (key : α → ℚ) (x : α) : List α → List α
  | [] => [x]
  | y :: ys => if key x ≤ key y then y :: insertDesc key x ys
               else x :: y :: ys

/-- Stable sort by descending key (model of Python `sort(reverse=True)`). -/
def sortDesc (key : α → ℚ) (l : List α) : List α :=
  l.foldl (fun acc x => insertDesc key x acc) []

theorem mem_insertDesc (key : α → ℚ) (x : α) (l : List α) (b : α)
    (hb : b ∈ insertDesc key x l) : b = x ∨ b ∈ l := by
  induction l with
  | nil => simpa [insertDesc] using hb
  | cons y ys ih =>
    simp only [insertDesc] at hb
    by_cases hxy : key x ≤ key y
    · rw [if_pos hxy] at hb
      rcases List.mem_cons.mp hb with h1 | h2
      · exact Or.inr (by simp [h1])
      · rcases ih h2 with h3 | h4
        · exact Or.inl h3
        · exact Or.inr (List.mem_cons_of_mem _ h4)
    · rw [if_neg hxy] at hb
      rcases List.mem_cons.mp hb with h1 | h2
      · exact Or.inl h1
      · exact Or.inr h2

theorem insertDesc_sorted (key : α → ℚ) (x : α) (l : List α)
    (h : l.Sorted (fun a b => key b ≤ key a)) :
    (insertDesc key x l).Sorted (fun a b => key b ≤ key a) := by
  induction l with
  | nil => simp [insertDesc]
  | cons y ys ih =>
    rw [List.sorted_cons] at h
    by_cases hxy : key x ≤ key y
    · have htail := ih h.2
      simp only [insertDesc, if_pos hxy]
      rw [List.sorted_cons]
      refine ⟨?_, htail⟩
      intro b hb
      rcases mem_insertDesc key x ys b hb with rfl | hbys
      · exact hxy
      · exact h.1 b hbys
    · push_neg at hxy
      simp only [insertDesc, if_neg (not_le.mpr hxy)]
      rw [List.sorted_cons]
      refine ⟨?_, by rw [List.sorted_cons]; exact h⟩
      intro b hb
      rcases List.mem_cons.mp hb with rfl | hbys
      · exact le_of_lt hxy
      · exact le_trans (h.1 b hbys) (le_of_lt hxy)

theorem sortDesc_sorted (key : α → ℚ) (l : List α) :
    (sortDesc key l).Sorted (fun a b => key b ≤ key a) := by
  suffices h : ∀ acc : List α, acc.Sorted (fun a b => key b ≤ key a) →
      (l.foldl (fun acc x => insertDesc key x acc) acc).Sorted
        (fun a b => key b ≤ key a) by
    exact h [] (by simp)
  induction l with
  | nil => intro acc hacc; simpa using hacc
  | cons y ys ih =>
    intro acc hacc
    exact ih _ (insertDesc_sorted key y acc hacc)

theorem mem_sortDesc (key : α → ℚ) (l : List α) (b : α)
    (hb : b ∈ sortDesc key l) : b ∈ l := by
  have main : ∀ l0 acc : List α,
      b ∈ l0.foldl (fun acc x => insertDesc key x acc) acc →
      b ∈ acc ∨ b ∈ l0 := by
    intro l0
    induction l0 with
    | nil => intro acc h; exact Or.inl (by simpa using h)
    | cons y ys ih =>
      intro acc h
      rw [List.foldl_cons] at h
      rcases ih _ h with h1 | h2
      · rcases mem_insertDesc key y acc b h1 with rfl | h3
        · exact Or.inr (by simp)
        · exact Or.inl h3
      · exact Or.inr (List.mem_cons_of_mem _ h2)
  rcases main l [] hb with h1 | h2
  · simp at h1
  · exact h2

/-! ## `nx.all_simple_paths` and `LensGraph.find_path`

`all_simple_paths(G, s, t, cutoff)` enumerates, in DFS order over the
adjacency lists, every simple directed path from `s` to `t` with at most
`cutoff` edges.  It raises `NodeNotFound` when `s` or `t` is absent; both
call sites of this module wrap it in a `try`/`except` that turns any
exception into `[]`, which the embeddings below inline. -/

/-- Paths from `current` to `t` avoiding `visited` (which contains every
node of the path so far, `current` included), with at most `fuel` edges.
Reaching `t` emits the path and stops extending, as in networkx. -/
def simplePathsFrom (g : Graph) (t : String) :
    Nat → List String → String → List (List String)
  | fuel, visited, current =>
    if current = t then [[t]]
    else match fuel with
      | 0 => []
      | fuel' + 1 =>
        ((g.successors current).filter (fun v => !(visited.contains v))).flatMap
          (fun v => (simplePathsFrom g t fuel' (v :: visited) v).map
            (fun p => current :: p))

/-- Sum of the edge weights along a path (`path_weight` inside
`LensGraph.find_path`): missing edge data contributes `0` and the `weight`
attribute defaults to `0`; every edge built by this module carries a
weight, so the defaults are never exercised on built graphs. -/
def pathWeight (g : Graph) : List String → ℚ
  | [] => 0
  | [_] => 0
  | a :: b :: rest =>
    (match g.getEdgeData a b with
     | some d => d.weight
     | none => 0) + pathWeight g (b :: rest)

/-- `LensGraph.find_path(source, target, max_length=4)`: all simple paths
with at most `maxLength` edges, sorted by descending total weight (Python's
stable sort), truncated to the top 3; `[]` when either node is absent (the
`NodeNotFound` is swallowed by the generic `except`). -/
def findPath (g : Graph) (s t : String) (maxLength : Nat := 4) :
    List (List String) :=
  if g.hasNode s && g.hasNode t then
    (sortDesc (pathWeight g) (simplePathsFrom g t maxLength [s] s)).take 3
  else []

/-- A simple directed path from `s` to `t` with at most `m` edges. -/
def IsSimplePath (g : Graph) (s t : String) (m : Nat) (p : List String) : Prop :=
  p.head? = some s ∧ p.getLast? = some t ∧
    List.Chain' (fun a b => g.hasEdge a b = true) p ∧
    p.Nodup ∧ p.length ≤ m + 1

theorem simplePathsFrom_spec (g : Graph) (t : String) :
    ∀ (fuel : Nat) (visited : List String) (current : String)
      (hcur : current ∈ visited) (p : List String),
      p ∈ simplePathsFrom g t fuel visited current →
      p.head? = some current ∧ p.getLast? = some t ∧
        List.Chain' (fun a b => g.hasEdge a b = true) p ∧
        p.Nodup ∧ p.length ≤ fuel + 1 ∧
        (∀ x ∈ p, x = current ∨ x ∉ visited) := by
  intro fuel
  induction fuel with
  | zero =>
    intro visited current hcur p hp
    rw [simplePathsFrom] at hp
    by_cases ht : current = t
    · rw [if_pos ht] at hp
      simp only [List.mem_singleton] at hp
      subst hp; subst ht
      refine ⟨rfl, rfl, by simp, by simp, by simp, ?_⟩
      intro x hx
      simp only [List.mem_singleton] at hx
      exact Or.inl hx
    · rw [if_neg ht] at hp
      simp at hp
  | succ fuel' ih =>
    intro visited current hcur p hp
    rw [simplePathsFrom] at hp
    by_cases ht : current = t
    · rw [if_pos ht] at hp
      simp only [List.mem_singleton] at hp
      subst hp; subst ht
      refine ⟨rfl, rfl, by simp, by simp, by simp, ?_⟩
      intro x hx
      simp only [List.mem_singleton] at hx
      exact Or.inl hx
    · rw [if_neg ht] at hp
      simp only [List.mem_flatMap, List.mem_map, List.mem_filter] at hp
      obtain ⟨v, ⟨hvsucc, hvvis⟩, q, hq, rfl⟩ := hp
      have hvnot : v ∉ visited := by
        simpa using hvvis
      have hVmem : v ∈ v :: visited := by simp
      obtain ⟨qh, qlast, qchain, qnodup, qlen, qfresh⟩ :=
        ih (v :: visited) v hVmem q hq
      have hqne : q ≠ [] := by
        intro h0; rw [h0] at qh; simp at qh
      have hcurv : current ≠ v := by
        intro h0; rw [h0] at hcur; exact hvnot hcur
      have hcurq : current ∉ q := by
        intro hmem
        rcases qfresh current hmem with h1 | h2
        · exact hcurv h1
        · exact h2 (List.mem_cons_of_mem _ hcur)
      have hedge : g.hasEdge current v = true := by
        unfold Graph.successors at hvsucc
        simp only [List.mem_map, List.mem_filter] at hvsucc
        obtain ⟨e, ⟨he, he1⟩, he2⟩ := hvsucc
        unfold Graph.hasEdge
        rw [List.any_eq_true]
        refine ⟨e, he, ?_⟩
        rw [Bool.and_eq_true]
        constructor
        · simpa using he1
        · simp [he2]
      refine ⟨rfl, ?_, ?_, ?_, ?_, ?_⟩
      · cases q with
        | nil => exact absurd rfl hqne
        | cons qa qrest => rw [List.getLast?_cons_cons]; exact qlast
      · cases q with
        | nil => exact absurd rfl hqne
        | cons qa qrest =>
          simp only [List.head?_cons, Option.some.injEq] at qh
          subst qh
          exact List.Chain'.cons hedge qchain
      · exact List.nodup_cons.mpr ⟨hcurq, qnodup⟩
      · simpa [Nat.succ_le_succ_iff] using Nat.succ_le_succ qlen
      · intro x hx
        rcases List.mem_cons.mp hx with rfl | hxq
        · exact Or.inl rfl
        · rcases qfresh x hxq with rfl | h2
          · exact Or.inr hvnot
          · exact Or.inr (fun hc => h2 (List.mem_cons_of_mem _ hc))

theorem findPath_mem (g : Graph) (s t : String) (m : Nat) (p : List String)
    (hp : p ∈ findPath g s t m) : IsSimplePath g s t m p := by
  unfold findPath at hp
  by_cases hnodes : (g.hasNode s && g.hasNode t) = true
  · rw [if_pos hnodes] at hp
    have h1 : p ∈ sortDesc (pathWeight g) (simplePathsFrom g t m [s] s) :=
      List.mem_of_mem_take hp
    have h2 : p ∈ simplePathsFrom g t m [s] s := mem_sortDesc _ _ _ h1
    obtain ⟨hh, hl, hc, hn, hlen, _⟩ :=
      simplePathsFrom_spec g t m [s] s (by simp) p h2
    exact ⟨hh, hl, hc, hn, hlen⟩
  · rw [if_neg hnodes] at hp
    simp at hp

theorem findPath_sorted (g : Graph) (s t : String) (m : Nat) :
    (findPath g s t m).Sorted (fun a b => pathWeight g b ≤ pathWeight g a) := by
  unfold findPath
  by_cases hnodes : (g.hasNode s && g.hasNode t) = true
  · rw [if_pos hnodes]
    exact (sortDesc_sorted (pathWeight g) _).sublist (List.take_sublist _ _)
  · rw [if_neg hnodes]; simp

theorem findPath_length_le (g : Graph) (s t : String) (m : Nat) :
    (findPath g s t m).length ≤ 3 := by
  unfold findPath
  by_cases hnodes : (g.hasNode s && g.hasNode t) = true
  · rw [if_pos hnodes]; exact List.length_take_le _ _
  · rw [if_neg hnodes]; simp

/-- The two-edge test graph of the path-scoring property: the only route
from `A` to `C` is `A→B` (weight 0.9) and `B→C` (weight 0.9). -/
def gPathScore : Graph :=
  { nodes := [("A", ⟨"A", some 1, "lens", "", []⟩),
              ("B", ⟨"B", some 1, "lens", "", []⟩),
              ("C", ⟨"C", some 1, "lens", "", []⟩)],
    edges := [("A", "B", ⟨9/10, "related", ""⟩),
              ("B", "C", ⟨9/10, "related", ""⟩)] }

/-! ## `LensGraph.find_bridges` -/

/-- Weight of the edge `u → v` as read by `G[u][v].get('weight', 0)`. -/
def edgeWeight (g : Graph) (u v : String) : ℚ :=
  match g.getEdgeData u v with
  | some d => d.weight
  | none => 0

/-- The ordered pairs `(lens1, lens2)` produced by
`for i, lens1 in enumerate(ids): for lens2 in ids[i+1:]`. -/
def orderedPairs : List α → List (α × α)
  | [] => []
  | x :: xs => xs.map (fun y => (x, y)) ++ orderedPairs xs

/-- The `bridges` set: middle nodes of 3-node (2-edge) simple paths from
`lens1` to `lens2`, over all ordered pairs.  The Python `set` is modelled
as a first-insertion-ordered list without duplicates (the properties proved
below do not depend on the unspecified `set` iteration order).  A pair with
an absent endpoint makes `all_simple_paths` raise `NodeNotFound`, swallowed
by the bare `except: continue`. -/
def bridgeCandidates (g : Graph) (ids : List String) : List String :=
  (orderedPairs ids).foldl
    (fun acc pr =>
      if g.hasNode pr.1 && g.hasNode pr.2 then
        (simplePathsFrom g pr.2 3 [pr.1] pr.1).foldl
          (fun acc2 path =>
            match path with
            | [_, b, _] => if acc2.contains b then acc2 else acc2 ++ [b]
            | _ => acc2)
          acc
      else acc)
    []

/-- The score of a bridge candidate: sum of the weights of edges in either
direction linking it to every queried id other than itself. -/
def bridgeScore (g : Graph) (ids : List String) (b : String) : ℚ :=
  ids.foldl
    (fun s lens =>
      let s1 := if lens != b && g.hasEdge lens b then s + edgeWeight g lens b else s
      if lens != b && g.hasEdge b lens then s1 + edgeWeight g b lens else s1)
    0

/-- `LensGraph.find_bridges(lens_ids)`. -/
def findBridges (g : Graph) (ids : List String) : List String :=
  (((sortDesc (fun p => p.2)
      ((bridgeCandidates g ids).map (fun b => (b, bridgeScore g ids b)))).take 5).map
    (fun p => p.1))

theorem mem_bridgeCandidates (g : Graph) (ids : List String) (b : String)
    (hb : b ∈ bridgeCandidates g ids) :
    ∃ pr ∈ orderedPairs ids, ∃ p ∈ simplePathsFrom g pr.2 3 [pr.1] pr.1,
      ∃ x z, p = [x, b, z] := by
  have main : ∀ (prs : List (String × String)) (acc : List String),
      b ∈ prs.foldl
        (fun acc pr =>
          if g.hasNode pr.1 && g.hasNode pr.2 then
            (simplePathsFrom g pr.2 3 [pr.1] pr.1).foldl
              (fun acc2 path =>
                match path with
                | [_, b, _] => if acc2.contains b then acc2 else acc2 ++ [b]
                | _ => acc2)
              acc
          else acc)
        acc →
      b ∈ acc ∨ ∃ pr ∈ prs, ∃ p ∈ simplePathsFrom g pr.2 3 [pr.1] pr.1,
        ∃ x z, p = [x, b, z] := by
    intro prs
    induction prs with
    | nil => intro acc h; exact Or.inl (by simpa using h)
    | cons pr rest ih =>
      intro acc h
      rw [List.foldl_cons] at h
      rcases ih _ h with h1 | h2
      · -- b came from processing pr (or was already in acc)
        by_cases hn : (g.hasNode pr.1 && g.hasNode pr.2) = true
        · rw [if_pos hn] at h1
          have inner : ∀ (ps : List (List String)) (acc2 : List String),
              b ∈ ps.foldl
                (fun acc2 path =>
                  match path with
                  | [_, b, _] => if acc2.contains b then acc2 else acc2 ++ [b]
                  | _ => acc2)
                acc2 →
              b ∈ acc2 ∨ ∃ p ∈ ps, ∃ x z, p = [x, b, z] := by
            intro ps
            induction ps with
            | nil => intro acc2 hh; exact Or.inl (by simpa using hh)
            | cons p prest ihp =>
              intro acc2 hh
              rw [List.foldl_cons] at hh
              rcases ihp _ hh with hh1 | hh2
              · match p, hh1 with
                | [x, m, z], hh1 =>
                  by_cases hc : acc2.contains m
                  · simp only [if_pos hc] at hh1
                    exact Or.inl hh1
                  · simp only [if_neg hc, List.mem_append, List.mem_singleton] at hh1
                    rcases hh1 with hh3 | rfl
                    · exact Or.inl hh3
                    · exact Or.inr ⟨[x, b, z], by simp, x, z, rfl⟩
                | [], hh1 => exact Or.inl hh1
                | [x], hh1 => exact Or.inl hh1
                | [x, y], hh1 => exact Or.inl hh1
                | x :: y :: z :: w :: r, hh1 => exact Or.inl hh1
              · obtain ⟨p0, hp0, hx⟩ := hh2
                exact Or.inr ⟨p0, List.mem_cons_of_mem _ hp0, hx⟩
          rcases inner _ _ h1 with h3 | h4
          · exact Or.inl h3
          · obtain ⟨p0, hp0, hx⟩ := h4
            exact Or.inr ⟨pr, by simp, p0, hp0, hx⟩
        · rw [if_neg hn] at h1
          exact Or.inl h1
      · obtain ⟨pr0, hpr0, hx⟩ := h2
        exact Or.inr ⟨pr0, List.mem_cons_of_mem _ hpr0, hx⟩
  rcases main (orderedPairs ids) [] hb with h1 | h2
  · simp at h1
  · exact h2

theorem findBridges_length_le (g : Graph) (ids : List String) :
    (findBridges g ids).length ≤ 5 := by
  unfold findBridges
  rw [List.length_map]
  exact List.length_take_le _ _

theorem mem_findBridges (g : Graph) (ids : List String) (b : String)
    (hb : b ∈ findBridges g ids) :
    ∃ pr ∈ orderedPairs ids, ∃ p ∈ simplePathsFrom g pr.2 3 [pr.1] pr.1,
      ∃ x z, p = [x, b, z] := by
  unfold findBridges at hb
  simp only [List.mem_map] at hb
  obtain ⟨⟨b0, sc⟩, hmem, rfl⟩ := hb
  have h1 := List.mem_of_mem_take hmem
  have h2 := mem_sortDesc _ _ _ h1
  simp only [List.mem_map] at h2
  obtain ⟨b1, hb1, heq⟩ := h2
  rw [Prod.mk.injEq] at heq
  obtain ⟨h3, h4⟩ := heq
  subst h3
  exact mem_bridgeCandidates g ids b1 hb1

/-! ## `LensGraph.find_contrasts` -/

/-- `LensGraph.find_contrasts(lens_id)`.  `graph.neighbors(lens_id)` (and
`predecessors`) raise `networkx.NetworkXError` when `lens_id` is not in the
graph, and the method has no exception handler, so the error propagates to
the caller; this is modelled by `Except.error ()`. -/
def findContrasts (g : Graph) (lensId : String) :
    Except Unit (List (String × String)) :=
  if !(g.hasNode lensId) then .error ()
  else .ok
    (((g.successors lensId).filterMap (fun n =>
        match g.getEdgeData lensId n with
        | some d =>
          if d.etype = "contrast" || d.etype = "paradox" then some (n, d.insight)
          else none
        | none => none)) ++
      ((g.predecessors lensId).filterMap (fun p =>
        match g.getEdgeData p lensId with
        | some d =>
          if d.etype = "contrast" || d.etype = "paradox" then some (p, d.insight)
          else none
        | none => none)))

/-! ## `LensGraph.get_lens_neighborhood`

The Python loop is a FIFO breadth-first search over `(node, depth)` pairs:
a node is expanded only while `depth < radius`, and a newly discovered node
is recorded in `neighborhood[edge_type]` under the type of the edge by
which it was first reached.  Because the queue is FIFO, the traversal is
exactly level-synchronous, which is how it is embedded: `visitLevel`
processes one whole depth layer in queue order and produces the next
layer, and `bfsRounds` runs `radius` layers.  The `defaultdict(list)` is an
association list keyed by edge type, keys in first-insertion order. -/

/-- The `type` attribute read by `edge_data.get('type', 'unknown')`. -/
def edgeTypeOf (g : Graph) (u v : String) : String :=
  match g.getEdgeData u v with
  | some d => d.etype
  | none => "unknown"

/-- `neighborhood[edge_type].append(v)` on the association list. -/
def addToKind (acc : List (String × List String)) (k v : String) :
    List (String × List String) :=
  if acc.any (fun p => p.1 = k) then
    acc.map (fun p => if p.1 = k then (p.1, p.2 ++ [v]) else p)
  else acc ++ [(k, [v])]

/-- Visit the successors of `current` in adjacency order: each unvisited
one is marked visited, recorded under its edge type, and queued. -/
def visitSuccs (g : Graph) (current : String) :
    List String → List String → List (String × List String) → List String →
      List String × List (String × List String) × List String
  | [], vis, acc, nxt => (vis, acc, nxt)
  | nb :: rest, vis, acc, nxt =>
    if vis.contains nb then visitSuccs g current rest vis acc nxt
    else visitSuccs g current rest (vis ++ [nb])
      (addToKind acc (edgeTypeOf g current nb) nb) (nxt ++ [nb])

/-- Process one depth layer in queue order. -/
def visitLevel (g : Graph) :
    List String → List String → List (String × List String) → List String →
      List String × List (String × List String) × List String
  | [], vis, acc, nxt => (vis, acc, nxt)
  | cur :: rest, vis, acc, nxt =>
    let s := visitSuccs g cur (g.successors cur) vis acc nxt
    visitLevel g rest s.1 s.2.1 s.2.2

/-- Run `n` layers of the bounded BFS. -/
def bfsRounds (g : Graph) :
    Nat → List String → List (String × List String) → List String →
      List (String × List String)
  | 0, _, acc, _ => acc
  | n + 1, vis, acc, level =>
    let s := visitLevel g level vis acc []
    bfsRounds g n s.1 s.2.1 s.2.2

/-- `LensGraph.get_lens_neighborhood(lens_id, radius=2)`.  When `radius ≥ 1`
and `lens_id` is absent, the first `graph.neighbors(lens_id)` call raises
`NetworkXError` (there is no handler); every node discovered from a present
start is itself present, so no later call can raise. -/
def getLensNeighborhood (g : Graph) (lensId : String) (radius : Nat := 2) :
    Except Unit (List (String × List String)) :=
  if 1 ≤ radius && !(g.hasNode lensId) then .error ()
  else .ok (bfsRounds g radius [lensId] [] [lensId])

/-- All concept ids recorded in the neighborhood mapping. -/
def kindMembers (acc : List (String × List String)) : List String :=
  acc.flatMap (fun p => p.2)

/-- `v` is reachable from `u` along at most `n` directed (successor)
edges. -/
def reachWithin (g : Graph) : Nat → String → String → Prop
  | 0, u, v => u = v
  | n + 1, u, v => u = v ∨ ∃ w ∈ g.successors u, reachWithin g n w v

theorem reachWithin_refl (g : Graph) (n : Nat) (u : String) :
    reachWithin g n u u := by
  cases n with
  | zero => rfl
  | succ n => exact Or.inl rfl

theorem reachWithin_mono (g : Graph) {n m : Nat} (h : n ≤ m) {u v : String}
    (hr : reachWithin g n u v) : reachWithin g m u v := by
  induction n generalizing m u with
  | zero =>
    have hv : u = v := hr
    subst hv
    exact reachWithin_refl g m u
  | succ n ih =>
    match m, h with
    | m + 1, h =>
      rcases hr with rfl | ⟨w, hw, hr⟩
      · exact Or.inl rfl
      · exact Or.inr ⟨w, hw, ih (Nat.succ_le_succ_iff.mp h) hr⟩

theorem reachWithin_step (g : Graph) {n : Nat} {u v w : String}
    (hr : reachWithin g n u v) (hw : w ∈ g.successors v) :
    reachWithin g (n + 1) u w := by
  induction n generalizing u with
  | zero =>
    have hv : u = v := hr
    subst hv
    exact Or.inr ⟨w, hw, reachWithin_refl g 0 w⟩
  | succ n ih =>
    rcases hr with rfl | ⟨x, hx, hr⟩
    · exact Or.inr ⟨w, hw, reachWithin_refl g (n + 1) w⟩
    · exact Or.inr ⟨x, hx, ih hr⟩

theorem mem_addToKind (acc : List (String × List String)) (k v x : String)
    (hx : x ∈ kindMembers (addToKind acc k v)) :
    x = v ∨ x ∈ kindMembers acc := by
  unfold addToKind at hx
  by_cases hk : acc.any (fun p => p.1 = k) = true
  · rw [if_pos hk] at hx
    unfold kindMembers at hx ⊢
    simp only [List.mem_flatMap] at hx
    obtain ⟨p, hp, hxp⟩ := hx
    simp only [List.mem_map] at hp
    obtain ⟨q, hq, heq⟩ := hp
    by_cases hqk : q.1 = k
    · rw [if_pos hqk] at heq
      rw [← heq] at hxp
      simp only [List.mem_append, List.mem_singleton] at hxp
      rcases hxp with h1 | rfl
      · exact Or.inr (List.mem_flatMap.mpr ⟨q, hq, h1⟩)
      · exact Or.inl rfl
    · rw [if_neg hqk] at heq
      rw [← heq] at hxp
      exact Or.inr (List.mem_flatMap.mpr ⟨q, hq, hxp⟩)
  · rw [if_neg hk] at hx
    unfold kindMembers at hx ⊢
    simp only [List.mem_flatMap, List.mem_append, List.mem_singleton] at hx
    obtain ⟨p, hp, hxp⟩ := hx
    rcases hp with h1 | rfl
    · exact Or.inr (List.mem_flatMap.mpr ⟨p, h1, hxp⟩)
    · simp only [List.mem_singleton] at hxp
      exact Or.inl hxp

theorem visitSuccs_spec (g : Graph) (current : String) :
    ∀ (nbs vis : List String) (acc : List (String × List String))
      (nxt : List String) (x : String),
      (x ∈ kindMembers (visitSuccs g current nbs vis acc nxt).2.1 →
        x ∈ kindMembers acc ∨ x ∈ nbs) ∧
      (x ∈ (visitSuccs g current nbs vis acc nxt).2.2 →
        x ∈ nxt ∨ x ∈ nbs) := by
  intro nbs
  induction nbs with
  | nil =>
    intro vis acc nxt x
    exact ⟨fun h => Or.inl h, fun h => Or.inl h⟩
  | cons nb rest ih =>
    intro vis acc nxt x
    rw [visitSuccs]
    by_cases hv : vis.contains nb = true
    · rw [if_pos hv]
      refine ⟨fun h => ?_, fun h => ?_⟩
      · rcases (ih _ _ _ x).1 h with h1 | h2
        · exact Or.inl h1
        · exact Or.inr (List.mem_cons_of_mem _ h2)
      · rcases (ih _ _ _ x).2 h with h1 | h2
        · exact Or.inl h1
        · exact Or.inr (List.mem_cons_of_mem _ h2)
    · rw [if_neg hv]
      refine ⟨fun h => ?_, fun h => ?_⟩
      · rcases (ih _ _ _ x).1 h with h1 | h2
        · rcases mem_addToKind _ _ _ _ h1 with rfl | h3
          · exact Or.inr (by simp)
          · exact Or.inl h3
        · exact Or.inr (List.mem_cons_of_mem _ h2)
      · rcases (ih _ _ _ x).2 h with h1 | h2
        · simp only [List.mem_append, List.mem_singleton] at h1
          rcases h1 with h3 | rfl
          · exact Or.inl h3
          · exact Or.inr (by simp)
        · exact Or.inr (List.mem_cons_of_mem _ h2)

theorem visitLevel_spec (g : Graph) :
    ∀ (level vis : List String) (acc : List (String × List String))
      (nxt : List String) (x : String),
      (x ∈ kindMembers (visitLevel g level vis acc nxt).2.1 →
        x ∈ kindMembers acc ∨ ∃ u ∈ level, x ∈ g.successors u) ∧
      (x ∈ (visitLevel g level vis acc nxt).2.2 →
        x ∈ nxt ∨ ∃ u ∈ level, x ∈ g.successors u) := by
  intro level
  induction level with
  | nil =>
    intro vis acc nxt x
    exact ⟨fun h => Or.inl h, fun h => Or.inl h⟩
  | cons cur rest ih =>
    intro vis acc nxt x
    rw [visitLevel]
    refine ⟨fun h => ?_, fun h => ?_⟩
    · rcases (ih _ _ _ x).1 h with h1 | ⟨u, hu, hxu⟩
      · rcases (visitSuccs_spec g cur (g.successors cur) vis acc nxt x).1 h1
          with h2 | h3
        · exact Or.inl h2
        · exact Or.inr ⟨cur, by simp, h3⟩
      · exact Or.inr ⟨u, List.mem_cons_of_mem _ hu, hxu⟩
    · rcases (ih _ _ _ x).2 h with h1 | ⟨u, hu, hxu⟩
      · rcases (visitSuccs_spec g cur (g.successors cur) vis acc nxt x).2 h1
          with h2 | h3
        · exact Or.inl h2
        · exact Or.inr ⟨cur, by simp, h3⟩
      · exact Or.inr ⟨u, List.mem_cons_of_mem _ hu, hxu⟩

theorem bfsRounds_reach (g : Graph) (start : String) :
    ∀ (n k : Nat) (vis : List String) (acc : List (String × List String))
      (level : List String),
      (∀ u ∈ level, reachWithin g k start u) →
      (∀ x ∈ kindMembers acc, reachWithin g k start x) →
      ∀ x ∈ kindMembers (bfsRounds g n vis acc level),
        reachWithin g (k + n) start x := by
  intro n
  induction n with
  | zero =>
    intro k vis acc level _ hacc x hx
    exact hacc x hx
  | succ n ih =>
    intro k vis acc level hlevel hacc x hx
    rw [bfsRounds] at hx
    have hlevel2 : ∀ u ∈ (visitLevel g level vis acc []).2.2,
        reachWithin g (k + 1) start u := by
      intro u hu
      rcases (visitLevel_spec g level vis acc [] u).2 hu with h1 | ⟨w, hw, hsw⟩
      · simp at h1
      · exact reachWithin_step g (hlevel w hw) hsw
    have hacc2 : ∀ y ∈ kindMembers (visitLevel g level vis acc []).2.1,
        reachWithin g (k + 1) start y := by
      intro y hy
      rcases (visitLevel_spec g level vis acc [] y).1 hy with h1 | ⟨w, hw, hsw⟩
      · exact reachWithin_mono g (Nat.le_succ k) (hacc y h1)
      · exact reachWithin_step g (hlevel w hw) hsw
    have := ih (k + 1) _ _ _ hlevel2 hacc2 x hx
    have harith : k + 1 + n = k + (n + 1) := by omega
    rw [harith] at this
    exact this

/-- Every id returned by the neighborhood query is forward-reachable from
the start within `radius` edges. -/
theorem getLensNeighborhood_reach (g : Graph) (lensId : String)
    (radius : Nat) (res : List (String × List String))
    (hres : getLensNeighborhood g lensId radius = .ok res)
    (x : String) (hx : x ∈ kindMembers res) :
    reachWithin g radius lensId x := by
  unfold getLensNeighborhood at hres
  by_cases hguard : (1 ≤ radius && !(g.hasNode lensId)) = true
  · rw [if_pos hguard] at hres
    exact absurd hres (by simp)
  · rw [if_neg hguard] at hres
    have hres2 : bfsRounds g radius [lensId] [] [lensId] = res := by
      simpa using hres
    rw [← hres2] at hx
    have := bfsRounds_reach g lensId radius 0 [lensId] [] [lensId]
      (by intro u hu; simp only [List.mem_singleton] at hu; subst hu
          exact reachWithin_refl g 0 u)
      (by intro y hy; simp [kindMembers] at hy)
      x hx
    simpa using this

/-! ## `LensGraph.suggest_lens_journey`

`nx.shortest_path(G, s, t, weight=lambda u, v, d: 1 / d.get('weight', 0.1))`
runs Dijkstra from `s`.  With positive edge costs it returns a minimum-cost
simple path, raises `NodeNotFound` for an absent endpoint, and raises
`NetworkXNoPath` when `t` is unreachable (the only exception the caller
catches).  An edge whose `weight` attribute is `0` makes the lambda raise
`ZeroDivisionError` when Dijkstra evaluates it; Dijkstra evaluates the
out-edges of the nodes it settles, which is modelled (slightly
conservatively, and exactly at the concrete inputs considered here) as: the
call raises iff some edge whose source is forward-reachable from `s` has
`weight == 0`.  Minimum-cost search is modelled by exhaustive enumeration
of simple paths, ties resolved to the first enumerated. -/

/-- Keep the first occurrence of each element (`seen` accumulates the
elements already kept). -/
def dedupFirstAux [BEq α] : List α → List α → List α
  | [], _ => []
  | x :: xs, seen =>
    if seen.contains x then dedupFirstAux xs seen
    else x :: dedupFirstAux xs (seen ++ [x])

/-- Keep the first occurrence of each element. -/
def dedupFirst [BEq α] (l : List α) : List α :=
  dedupFirstAux l []

/-- Propositional equality is decidable on `Except Unit α` values. -/
instance {α : Type} [DecidableEq α] : DecidableEq (Except Unit α) := fun a b =>
  match a, b with
  | .error _, .error _ => isTrue (by rfl)
  | .error _, .ok _ => isFalse (fun h => by cases h)
  | .ok _, .error _ => isFalse (fun h => by cases h)
  | .ok x, .ok y =>
    if h : x = y then isTrue (by rw [h])
    else isFalse (fun hh => h (by cases hh; rfl))

/-- `G.nodes` iteration order: explicitly added nodes first, then nodes
that exist only as edge endpoints, each in insertion order. -/
def nodeIds (g : Graph) : List String :=
  dedupFirst (g.nodes.map (fun p => p.1) ++
    g.edges.flatMap (fun e => [e.1, e.2.1]))

/-- Python `str.lower()`, modelled characterwise (`String.toLower` itself
is defined by position-based recursion that the kernel cannot evaluate, so
the equivalent character-list map is used). -/
def strLower (s : String) : String :=
  ⟨s.data.map Char.toLower⟩

/-- Python's substring test `sub in s` on the character lists. -/
def charsContain : List Char → List Char → Bool
  | [], needle => needle.isEmpty
  | h :: t, needle => needle.isPrefixOf (h :: t) || charsContain t needle

/-- `sub in s` for strings. -/
def strContains (s sub : String) : Bool :=
  charsContain s.toList sub.toList

/-- The target-lens scan of `suggest_lens_journey`: nodes whose definition
contains the concept (case-insensitive) or one of whose related concepts
contains it.  Nodes existing only as edge endpoints have no attributes and
never match. -/
def targetLenses (g : Graph) (tc : String) : List String :=
  (nodeIds g).filter (fun v =>
    match g.dataOf v with
    | some d =>
      strContains (strLower d.definition) (strLower tc) ||
        d.related_concepts.any
          (fun c => strContains (strLower c) (strLower tc))
    | none => false)

/-- One expansion step of the forward-reachable set. -/
def closureStep (g : Graph) (acc : List String) : List String :=
  dedupFirst (acc ++ acc.flatMap (fun u => g.successors u))

/-- Iterated expansion. -/
def forwardClosure (g : Graph) : Nat → List String → List String
  | 0, acc => acc
  | n + 1, acc => forwardClosure g n (closureStep g acc)

/-- Nodes forward-reachable from `s` (running one step per edge reaches a
fixed point, since every newly reached node consumes at least one edge). -/
def reachSet (g : Graph) (s : String) : List String :=
  forwardClosure g g.edges.length [s]

/-- Dijkstra from `s` evaluates `1 / weight` on an edge with `weight == 0`. -/
def zeroWeightFrontier (g : Graph) (s : String) : Bool :=
  g.edges.any (fun e => (reachSet g s).contains e.1 && decide (e.2.2.weight = 0))

/-- The cost `1 / d.get('weight', 0.1)` of one edge (every edge built by
the module has a weight, so the `0.1` default is never exercised). -/
def journeyEdgeCost (g : Graph) (a b : String) : ℚ :=
  1 / (match g.getEdgeData a b with
       | some d => d.weight
       | none => (1 : ℚ)/10)

/-- Total inverse-weight cost of a path. -/
def pathCostInv (g : Graph) : List String → ℚ
  | a :: b :: rest => journeyEdgeCost g a b + pathCostInv g (b :: rest)
  | _ => 0

/-- First path of minimal key (Dijkstra returns one minimum-cost path). -/
def minCostFirst (key : List String → ℚ) : List (List String) → Option (List String)
  | [] => none
  | p :: ps =>
    match minCostFirst key ps with
    | none => some p
    | some q => if key q < key p then some q else some p

/-- Model of `nx.shortest_path(G, s, t, weight=1/w)`: `Except.error` for
the uncaught `NodeNotFound` / `ZeroDivisionError`, `Except.ok none` for
`NetworkXNoPath`, otherwise a minimum-cost simple path. -/
def shortestPathW (g : Graph) (s t : String) :
    Except Unit (Option (List String)) :=
  if !(g.hasNode s) || !(g.hasNode t) then .error ()
  else if zeroWeightFrontier g s then .error ()
  else .ok (minCostFirst (pathCostInv g)
    (simplePathsFrom g t (g.nodes.length + 2 * g.edges.length) [s] s))

/-- The journey-collection loop: a shortest path is kept when it has at
most 5 nodes; `NetworkXNoPath` is caught and skipped; any other exception
aborts the whole call. -/
def journeysFor (g : Graph) (s : String) :
    List String → Except Unit (List (List String))
  | [] => .ok []
  | t :: rest =>
    match shortestPathW g s t with
    | .error e => .error e
    | .ok none => journeysFor g s rest
    | .ok (some p) =>
      match journeysFor g s rest with
      | .error e => .error e
      | .ok js => if p.length ≤ 5 then .ok (p :: js) else .ok js

/-- Stable insertion for `journeys.sort(key=len)` (ascending, stable). -/
def insertLen (x : List String) : List (List String) → List (List String)
  | [] => [x]
  | y :: ys => if y.length ≤ x.length then y :: insertLen x ys
               else x :: y :: ys

/-- `journeys.sort(key=len)`. -/
def sortLen (l : List (List String)) : List (List String) :=
  l.foldl (fun acc x => insertLen x acc) []

/-- `LensGraph.suggest_lens_journey(start_lens_id, target_concept)`. -/
def suggestLensJourney (g : Graph) (startId targetConcept : String) :
    Except Unit (List String) :=
  if (targetLenses g targetConcept).isEmpty then .ok []
  else
    match journeysFor g startId ((targetLenses g targetConcept).take 5) with
    | .error e => .error e
    | .ok js => .ok ((sortLen js).headD [])

theorem mem_insertLen (x : List String) (l : List (List String))
    (b : List String) (hb : b ∈ insertLen x l) : b = x ∨ b ∈ l := by
  induction l with
  | nil => simpa [insertLen] using hb
  | cons y ys ih =>
    simp only [insertLen] at hb
    by_cases hxy : y.length ≤ x.length
    · rw [if_pos hxy] at hb
      rcases List.mem_cons.mp hb with h1 | h2
      · exact Or.inr (by simp [h1])
      · rcases ih h2 with h3 | h4
        · exact Or.inl h3
        · exact Or.inr (List.mem_cons_of_mem _ h4)
    · rw [if_neg hxy] at hb
      rcases List.mem_cons.mp hb with h1 | h2
      · exact Or.inl h1
      · exact Or.inr h2

theorem insertLen_mem (x : List String) (l : List (List String))
    (b : List String) (hb : b = x ∨ b ∈ l) : b ∈ insertLen x l := by
  induction l with
  | nil => simp only [insertLen]; simpa using hb
  | cons y ys ih =>
    simp only [insertLen]
    by_cases hxy : y.length ≤ x.length
    · rw [if_pos hxy]
      rcases hb with rfl | h2
      · exact List.mem_cons_of_mem _ (ih (Or.inl rfl))
      · rcases List.mem_cons.mp h2 with h3 | h4
        · exact by simp [h3]
        · exact List.mem_cons_of_mem _ (ih (Or.inr h4))
    · rw [if_neg hxy]
      rcases hb with rfl | h2
      · simp
      · exact List.mem_cons_of_mem _ h2

theorem insertLen_sorted (x : List String) (l : List (List String))
    (h : l.Sorted (fun a b => a.length ≤ b.length)) :
    (insertLen x l).Sorted (fun a b => a.length ≤ b.length) := by
  induction l with
  | nil => simp [insertLen]
  | cons y ys ih =>
    rw [List.sorted_cons] at h
    by_cases hxy : y.length ≤ x.length
    · simp only [insertLen, if_pos hxy]
      rw [List.sorted_cons]
      refine ⟨?_, ih h.2⟩
      intro b hb
      rcases mem_insertLen x ys b hb with rfl | hbys
      · exact hxy
      · exact h.1 b hbys
    · push_neg at hxy
      simp only [insertLen, if_neg (not_le.mpr hxy)]
      rw [List.sorted_cons]
      refine ⟨?_, by rw [List.sorted_cons]; exact h⟩
      intro b hb
      rcases List.mem_cons.mp hb with rfl | hbys
      · exact le_of_lt hxy
      · exact le_trans (le_of_lt hxy) (h.1 b hbys)

theorem sortLen_sorted (l : List (List String)) :
    (sortLen l).Sorted (fun a b => a.length ≤ b.length) := by
  suffices h : ∀ acc : List (List String),
      acc.Sorted (fun a b => a.length ≤ b.length) →
      (l.foldl (fun acc x => insertLen x acc) acc).Sorted
        (fun a b => a.length ≤ b.length) by
    exact h [] (by simp)
  induction l with
  | nil => intro acc hacc; simpa using hacc
  | cons y ys ih => intro acc hacc; exact ih _ (insertLen_sorted y acc hacc)

theorem sortLen_mem_of (l : List (List String)) (b : List String)
    (hb : b ∈ l) : b ∈ sortLen l := by
  have main : ∀ (l0 acc : List (List String)),
      (b ∈ acc ∨ b ∈ l0) →
      b ∈ l0.foldl (fun acc x => insertLen x acc) acc := by
    intro l0
    induction l0 with
    | nil => intro acc h; rcases h with h1 | h2
             · simpa using h1
             · simp at h2
    | cons y ys ih =>
      intro acc h
      rw [List.foldl_cons]
      rcases h with h1 | h2
      · exact ih _ (Or.inl (insertLen_mem y acc b (Or.inr h1)))
      · rcases List.mem_cons.mp h2 with rfl | h3
        · exact ih _ (Or.inl (insertLen_mem b acc b (Or.inl rfl)))
        · exact ih _ (Or.inr h3)
  exact main l [] (Or.inr hb)

theorem mem_sortLen (l : List (List String)) (b : List String)
    (hb : b ∈ sortLen l) : b ∈ l := by
  have main : ∀ (l0 acc : List (List String)),
      b ∈ l0.foldl (fun acc x => insertLen x acc) acc →
      b ∈ acc ∨ b ∈ l0 := by
    intro l0
    induction l0 with
    | nil => intro acc h; exact Or.inl (by simpa using h)
    | cons y ys ih =>
      intro acc h
      rw [List.foldl_cons] at h
      rcases ih _ h with h1 | h2
      · rcases mem_insertLen y acc b h1 with rfl | h3
        · exact Or.inr (by simp)
        · exact Or.inl h3
      · exact Or.inr (List.mem_cons_of_mem _ h2)
  rcases main l [] hb with h1 | h2
  · simp at h1
  · exact h2

/-! ## Graph construction (`_load_lenses`, `_load_relationships`,
`_build_graph`)

The three JSON sources are modelled as already-parsed record lists.  A
record field read through `.get(key, default)` is modelled by the value of
that read (e.g. `insight` holds `conn.get('insight', '')`).  The Python
`set`s used for tag grouping are modelled as first-insertion-ordered
duplicate-free lists; the properties proved about the concept step do not
depend on the unspecified `set` iteration order. -/

/-- `G.add_node(id, ...)`: inserts, or overwrites the attributes. -/
def Graph.addNode (g : Graph) (v : String) (d : NodeData) : Graph :=
  if g.nodes.any (fun p => p.1 = v) then
    { g with nodes := g.nodes.map (fun p => if p.1 = v then (v, d) else p) }
  else { g with nodes := g.nodes ++ [(v, d)] }

/-- The guarded add used by the frame, temporal and concept steps:
`if not self.graph.has_edge(u, v): self.graph.add_edge(u, v, ...)`. -/
def Graph.addEdgeIfAbsent (g : Graph) (u v : String) (d : EdgeData) : Graph :=
  if g.hasEdge u v then g else g.addEdge u v d

/-- A record of `all_lenses_for_analysis.json`; `episode` is `some e` when
`int(lens['episode'])` succeeds. -/
structure LensRec where
  id : String
  name : String
  episode : Option Int
  typ : String
  definition : String
  related_concepts : List String
  deriving Repr, DecidableEq

/-- A record of `claude_lens_connections_analysis.json`'s `connections`. -/
structure ConnRec where
  source_id : String
  target_id : String
  weight : ℚ
  typ : String
  insight : String
  deriving Repr, DecidableEq

/-- A record of `lens_frames_thematic.json`'s `frames`. -/
structure FrameRec where
  id : String
  lens_ids : List String
  deriving Repr, DecidableEq

/-- `_load_lenses`: every catalog record becomes a node. -/
def loadLenses (catalog : List LensRec) : Graph :=
  catalog.foldl
    (fun g lens => g.addNode lens.id
      ⟨lens.name, lens.episode, lens.typ, lens.definition, lens.related_concepts⟩)
    ⟨[], []⟩

/-- First half of `_load_relationships`: every curated connection becomes a
directed edge (unconditional `add_edge`). -/
def loadCurated (g : Graph) (conns : List ConnRec) : Graph :=
  conns.foldl
    (fun g2 c => g2.addEdge c.source_id c.target_id ⟨c.weight, c.typ, c.insight⟩)
    g

/-- Second half of `_load_relationships`: for each frame, a *frame* edge of
weight 0.3 between every ordered pair of co-listed lenses, guarded by a
single-direction `has_edge` check. -/
def loadFrames (g : Graph) (frames : List FrameRec) : Graph :=
  frames.foldl
    (fun g2 fr =>
      (orderedPairs fr.lens_ids).foldl
        (fun g3 pr => g3.addEdgeIfAbsent pr.1 pr.2 ⟨3/10, "frame", ""⟩)
        g2)
    g

/-- Insertion sort ascending on integers (`sorted(...)` over episode keys). -/
def insertInt (x : Int) : List Int → List Int
  | [] => [x]
  | y :: ys => if y ≤ x then y :: insertInt x ys else x :: y :: ys

/-- `sorted` on integers. -/
def sortInt (l : List Int) : List Int :=
  l.foldl (fun acc x => insertInt x acc) []

/-- `nodes_by_episode[ep]`, in node-insertion order. -/
def nodesWithEpisode (g : Graph) (ep : Int) : List String :=
  (g.nodes.filter (fun p => p.2.episode = some ep)).map (fun p => p.1)

/-- Temporal step of `_build_graph`: a *temporal* edge of weight 0.1 from
each lens of episode `ep` to each lens of episode `ep + 1`, guarded by a
single-direction `has_edge` check. -/
def temporalStep (g : Graph) : Graph :=
  (sortInt (dedupFirst (g.nodes.filterMap (fun p => p.2.episode)))).foldl
    (fun g2 ep =>
      if (nodesWithEpisode g (ep + 1)).isEmpty then g2
      else
        (nodesWithEpisode g ep).foldl
          (fun g3 l1 =>
            (nodesWithEpisode g (ep + 1)).foldl
              (fun g4 l2 => g4.addEdgeIfAbsent l1 l2 ⟨1/10, "temporal", ""⟩)
              g3)
          g2)
    g

/-- `concept_to_lenses[concept.lower()].add(node)` on the association list
of insertion-ordered sets. -/
def addToSet (m : List (String × List String)) (k v : String) :
    List (String × List String) :=
  if m.any (fun q => q.1 = k) then
    m.map (fun q =>
      if q.1 = k then (q.1, if q.2.contains v then q.2 else q.2 ++ [v]) else q)
  else m ++ [(k, [v])]

/-- The `concept_to_lenses` map: lowercased tag → set of nodes carrying it. -/
def conceptMap (g : Graph) : List (String × List String) :=
  g.nodes.foldl
    (fun m p =>
      p.2.related_concepts.foldl (fun m2 c => addToSet m2 (strLower c) p.1) m)
    []

/-- Concept step of `_build_graph`: for every tag shared by 2–5 lenses, a
*concept* edge of weight 0.4 between every ordered pair, guarded by a
single-direction `has_edge` check; other tags are skipped. -/
def conceptStep (g : Graph) : Graph :=
  (conceptMap g).foldl
    (fun g2 pr =>
      if 2 ≤ pr.2.length && pr.2.length ≤ 5 then
        (orderedPairs pr.2).foldl
          (fun g3 p => g3.addEdgeIfAbsent p.1 p.2 ⟨2/5, "concept", ""⟩)
          g2
      else g2)
    g

/-- `LensGraph.__init__`: load lenses, curated connections and frames, then
the temporal and concept steps, in this fixed order. -/
def buildGraph (catalog : List LensRec) (conns : List ConnRec)
    (frames : List FrameRec) : Graph :=
  conceptStep (temporalStep (loadFrames (loadCurated (loadLenses catalog) conns) frames))

/-! ### Edge-preservation lemmas: the guarded steps never merge or
override an existing edge, and only ever append edges. -/

theorem addEdgeIfAbsent_edges (g : Graph) (u v : String) (d : EdgeData) :
    (g.addEdgeIfAbsent u v d).edges = g.edges ∨
      ((g.addEdgeIfAbsent u v d).edges = g.edges ++ [(u, v, d)] ∧
        g.hasEdge u v = false) := by
  unfold Graph.addEdgeIfAbsent
  by_cases h : g.hasEdge u v = true
  · rw [if_pos h]; exact Or.inl rfl
  · rw [if_neg h]
    unfold Graph.addEdge
    rw [if_neg h]
    exact Or.inr ⟨rfl, by simpa using h⟩

theorem hasEdge_append (g : Graph) (ext : List (String × String × EdgeData))
    (u v : String) (h : g.hasEdge u v = true) :
    Graph.hasEdge { g with edges := g.edges ++ ext } u v = true := by
  unfold Graph.hasEdge at h ⊢
  rw [List.any_eq_true] at h ⊢
  obtain ⟨e, he, hp⟩ := h
  exact ⟨e, List.mem_append_left _ he, hp⟩

theorem getEdgeData_append (g : Graph) (ext : List (String × String × EdgeData))
    (u v : String) (h : g.hasEdge u v = true) :
    Graph.getEdgeData { g with edges := g.edges ++ ext } u v = g.getEdgeData u v := by
  unfold Graph.getEdgeData
  have hfind : (g.edges.find? (fun e => e.1 = u && e.2.1 = v)).isSome = true := by
    rw [List.find?_isSome]
    unfold Graph.hasEdge at h
    rw [List.any_eq_true] at h
    exact h
  show (List.find? _ (g.edges ++ ext)).map _ = _
  rw [List.find?_append]
  obtain ⟨e, he⟩ := Option.isSome_iff_exists.mp hfind
  rw [he]
  rfl

/-- A single guarded add preserves every existing edge and its data. -/
theorem addEdgeIfAbsent_preserves (g : Graph) (a b u v : String) (d : EdgeData)
    (h : g.hasEdge u v = true) :
    (g.addEdgeIfAbsent a b d).hasEdge u v = true ∧
      (g.addEdgeIfAbsent a b d).getEdgeData u v = g.getEdgeData u v := by
  rcases addEdgeIfAbsent_edges g a b d with h1 | ⟨h1, _⟩
  · constructor
    · show Graph.hasEdge _ u v = true
      unfold Graph.hasEdge
      rw [h1]
      exact h
    · show Graph.getEdgeData _ u v = _
      unfold Graph.getEdgeData
      rw [h1]
  · constructor
    · have := hasEdge_append g [(a, b, d)] u v h
      unfold Graph.hasEdge at this ⊢
      rw [h1]
      simpa using this
    · have := getEdgeData_append g [(a, b, d)] u v h
      unfold Graph.getEdgeData at this ⊢
      rw [h1]
      simpa using this

theorem addEdgeIfAbsent_hasEdge_self (g : Graph) (u v : String) (d : EdgeData) :
    (g.addEdgeIfAbsent u v d).hasEdge u v = true := by
  unfold Graph.addEdgeIfAbsent
  by_cases h : g.hasEdge u v = true
  · rw [if_pos h]; exact h
  · rw [if_neg h]
    unfold Graph.addEdge
    rw [if_neg h]
    unfold Graph.hasEdge
    rw [List.any_eq_true]
    exact ⟨(u, v, d), List.mem_append_right _ (by simp), by simp⟩

/-- Folding a step that preserves existing edges preserves existing edges. -/
theorem foldl_preserves {β : Type} (f : Graph → β → Graph)
    (hf : ∀ g x u v, g.hasEdge u v = true →
      (f g x).hasEdge u v = true ∧ (f g x).getEdgeData u v = g.getEdgeData u v) :
    ∀ (l : List β) (g : Graph) (u v : String), g.hasEdge u v = true →
      (l.foldl f g).hasEdge u v = true ∧
        (l.foldl f g).getEdgeData u v = g.getEdgeData u v := by
  intro l
  induction l with
  | nil => intro g u v h; exact ⟨h, rfl⟩
  | cons x xs ih =>
    intro g u v h
    rw [List.foldl_cons]
    obtain ⟨h1, h2⟩ := hf g x u v h
    obtain ⟨h3, h4⟩ := ih (f g x) u v h1
    exact ⟨h3, h4.trans h2⟩

/-- Folding a step whose new edges satisfy `R` yields only old edges or
`R`-edges. -/
theorem foldl_edges_origin {β : Type} (f : Graph → β → Graph)
    (R : β → String × String × EdgeData → Prop)
    (hf : ∀ g x e, e ∈ (f g x).edges → e ∈ g.edges ∨ R x e) :
    ∀ (l : List β) (g : Graph) (e : String × String × EdgeData),
      e ∈ (l.foldl f g).edges → e ∈ g.edges ∨ ∃ x ∈ l, R x e := by
  intro l
  induction l with
  | nil => intro g e h; exact Or.inl h
  | cons x xs ih =>
    intro g e h
    rw [List.foldl_cons] at h
    rcases ih (f g x) e h with h1 | ⟨x0, hx0, hR⟩
    · rcases hf g x e h1 with h2 | h3
      · exact Or.inl h2
      · exact Or.inr ⟨x, by simp, h3⟩
    · exact Or.inr ⟨x0, List.mem_cons_of_mem _ hx0, hR⟩

theorem addEdgeIfAbsent_origin (g : Graph) (u v : String) (d : EdgeData)
    (e : String × String × EdgeData) (he : e ∈ (g.addEdgeIfAbsent u v d).edges) :
    e ∈ g.edges ∨ e = (u, v, d) := by
  rcases addEdgeIfAbsent_edges g u v d with h1 | ⟨h1, _⟩
  · rw [h1] at he; exact Or.inl he
  · rw [h1] at he
    rcases List.mem_append.mp he with h2 | h2
    · exact Or.inl h2
    · exact Or.inr (by simpa using h2)

theorem hasEdge_exists_data (g : Graph) (u v : String)
    (h : g.hasEdge u v = true) :
    ∃ d, g.getEdgeData u v = some d ∧ (u, v, d) ∈ g.edges := by
  unfold Graph.hasEdge at h
  rw [List.any_eq_true] at h
  have hsome : (g.edges.find? (fun e => e.1 = u && e.2.1 = v)).isSome = true := by
    rw [List.find?_isSome]; exact h
  obtain ⟨e, he⟩ := Option.isSome_iff_exists.mp hsome
  have hmem := List.mem_of_find?_eq_some he
  have hpred := List.find?_some he
  rw [Bool.and_eq_true, decide_eq_true_eq, decide_eq_true_eq] at hpred
  obtain ⟨h1, h2⟩ := hpred
  refine ⟨e.2.2, ?_, ?_⟩
  · unfold Graph.getEdgeData
    rw [he]
    rfl
  · have : e = (u, v, e.2.2) := by
      obtain ⟨e1, e2, e3⟩ := e
      simp only at h1 h2
      rw [h1, h2]
    rw [← this]
    exact hmem

/-- Every guarded step of the builder preserves existing edges verbatim:
the frame step. -/
theorem loadFrames_preserves (g : Graph) (frames : List FrameRec)
    (u v : String) (h : g.hasEdge u v = true) :
    (loadFrames g frames).hasEdge u v = true ∧
      (loadFrames g frames).getEdgeData u v = g.getEdgeData u v := by
  unfold loadFrames
  refine foldl_preserves _ ?_ frames g u v h
  intro g2 fr u2 v2 h2
  exact foldl_preserves _
    (fun g3 pr u3 v3 h3 => addEdgeIfAbsent_preserves g3 pr.1 pr.2 u3 v3 _ h3)
    (orderedPairs fr.lens_ids) g2 u2 v2 h2

/-- The temporal step preserves existing edges verbatim. -/
theorem temporalStep_preserves (g : Graph) (u v : String)
    (h : g.hasEdge u v = true) :
    (temporalStep g).hasEdge u v = true ∧
      (temporalStep g).getEdgeData u v = g.getEdgeData u v := by
  unfold temporalStep
  refine foldl_preserves _ ?_ _ g u v h
  intro g2 ep u2 v2 h2
  by_cases hne : (nodesWithEpisode g (ep + 1)).isEmpty = true
  · rw [if_pos hne]; exact ⟨h2, rfl⟩
  · rw [if_neg hne]
    refine foldl_preserves _ ?_ _ g2 u2 v2 h2
    intro g3 l1 u3 v3 h3
    exact foldl_preserves _
      (fun g4 l2 u4 v4 h4 => addEdgeIfAbsent_preserves g4 l1 l2 u4 v4 _ h4)
      (nodesWithEpisode g (ep + 1)) g3 u3 v3 h3

/-- The concept step preserves existing edges verbatim. -/
theorem conceptStep_preserves (g : Graph) (u v : String)
    (h : g.hasEdge u v = true) :
    (conceptStep g).hasEdge u v = true ∧
      (conceptStep g).getEdgeData u v = g.getEdgeData u v := by
  unfold conceptStep
  refine foldl_preserves _ ?_ _ g u v h
  intro g2 pr u2 v2 h2
  by_cases hr : (2 ≤ pr.2.length && pr.2.length ≤ 5) = true
  · rw [if_pos hr]
    exact foldl_preserves _
      (fun g3 p u3 v3 h3 => addEdgeIfAbsent_preserves g3 p.1 p.2 u3 v3 _ h3)
      (orderedPairs pr.2) g2 u2 v2 h2
  · rw [if_neg hr]; exact ⟨h2, rfl⟩

/-- Every edge of `conceptStep g` is an edge of `g` or a weight-0.4
*concept* edge between an ordered pair of lenses sharing a 2–5-lens tag. -/
theorem conceptStep_edges_origin (g : Graph) (e : String × String × EdgeData)
    (he : e ∈ (conceptStep g).edges) :
    e ∈ g.edges ∨
      (e.2.2 = ⟨2/5, "concept", ""⟩ ∧
        ∃ pr ∈ conceptMap g, (2 ≤ pr.2.length ∧ pr.2.length ≤ 5) ∧
          (e.1, e.2.1) ∈ orderedPairs pr.2) := by
  unfold conceptStep at he
  have h := foldl_edges_origin _
    (fun pr e => e.2.2 = ⟨2/5, "concept", ""⟩ ∧
      (2 ≤ pr.2.length ∧ pr.2.length ≤ 5) ∧ (e.1, e.2.1) ∈ orderedPairs pr.2)
    ?_ (conceptMap g) g e he
  · rcases h with h1 | ⟨pr, hpr, hd, hrare, hmem⟩
    · exact Or.inl h1
    · exact Or.inr ⟨hd, pr, hpr, hrare, hmem⟩
  · intro g2 pr e2 he2
    by_cases hr : (2 ≤ pr.2.length && pr.2.length ≤ 5) = true
    · rw [if_pos hr] at he2
      have h2 := foldl_edges_origin _
        (fun p e => e = (p.1, p.2, (⟨2/5, "concept", ""⟩ : EdgeData)))
        (fun g3 p e3 he3 => addEdgeIfAbsent_origin g3 p.1 p.2 _ e3 he3)
        (orderedPairs pr.2) g2 e2 he2
      rcases h2 with h3 | ⟨p, hp, rfl⟩
      · exact Or.inl h3
      · refine Or.inr ⟨rfl, ?_, by simpa using hp⟩
        rw [Bool.and_eq_true, decide_eq_true_eq, decide_eq_true_eq] at hr
        exact hr
    · rw [if_neg hr] at he2
      exact Or.inl he2

/-- Forward edges added for every processed ordered pair of a 2–5-lens
tag: after the concept step the pair's forward edge exists. -/
theorem conceptStep_adds (g : Graph) (pr : String × List String)
    (hpr : pr ∈ conceptMap g)
    (hrare : 2 ≤ pr.2.length ∧ pr.2.length ≤ 5)
    (u v : String) (huv : (u, v) ∈ orderedPairs pr.2) :
    (conceptStep g).hasEdge u v = true := by
  unfold conceptStep
  obtain ⟨m1, m2, hm⟩ := List.append_of_mem hpr
  rw [hm, List.foldl_append, List.foldl_cons]
  refine (foldl_preserves _ ?_ m2 _ u v ?_).1
  · intro g2 pr2 u2 v2 h2
    by_cases hr : (2 ≤ pr2.2.length && pr2.2.length ≤ 5) = true
    · rw [if_pos hr]
      exact foldl_preserves _
        (fun g3 p u3 v3 h3 => addEdgeIfAbsent_preserves g3 p.1 p.2 u3 v3 _ h3)
        (orderedPairs pr2.2) g2 u2 v2 h2
    · rw [if_neg hr]; exact ⟨h2, rfl⟩
  · have hrb : (2 ≤ pr.2.length && pr.2.length ≤ 5) = true := by
      rw [Bool.and_eq_true, decide_eq_true_eq, decide_eq_true_eq]
      exact hrare
    rw [if_pos hrb]
    obtain ⟨p1, p2, hp⟩ := List.append_of_mem huv
    rw [hp, List.foldl_append, List.foldl_cons]
    refine (foldl_preserves _
      (fun g3 p u3 v3 h3 => addEdgeIfAbsent_preserves g3 p.1 p.2 u3 v3 _ h3)
      p2 _ u v ?_).1
    exact addEdgeIfAbsent_hasEdge_self _ u v _

theorem hasEdge_of_mem_edges (g : Graph) (u v : String) (d : EdgeData)
    (h : (u, v, d) ∈ g.edges) : g.hasEdge u v = true := by
  unfold Graph.hasEdge
  rw [List.any_eq_true]
  exact ⟨(u, v, d), h, by simp⟩

/-! ## `LensGraph.get_central_lenses`

The four centrality computations are `networkx` library calls, external to
the module; they are modelled as parameters: each is an association list of
`(node, score)` in node-insertion order (the iteration order of the dict
`centrality.items()`), and the two fallible ones (`eigenvector_centrality`,
`pagerank`) as `Except Unit` values, `Except.error` standing for the raised
exception that the module's `try`/`except` catches.  The module then sorts
by descending score, truncates to 10 and attaches
`node_data.get('name', 'Unknown')`.  The returned triples carry no field
recording which measure was actually used. -/

def getCentralLenses (g : Graph)
    (betweenness deg : List (String × ℚ))
    (eigen pagerank : Except Unit (List (String × ℚ)))
    (measure : String) : List (String × ℚ × String) :=
  let centrality :=
    if strLower measure = "betweenness" then betweenness
    else if strLower measure = "eigenvector" then
      (match eigen with
       | .ok c => c
       | .error _ => deg)
    else if strLower measure = "pagerank" then
      (match pagerank with
       | .ok c => c
       | .error _ => deg)
    else deg
  ((sortDesc (fun p => p.2) centrality).take 10).map
    (fun p => (p.1, p.2,
      match g.dataOf p.1 with
      | some d => d.name
      | none => "Unknown"))

/-! ## `GraphEnhancedRetrieval.get_lens_recommendations`

`graph.neighbors(lens_id)` iterates successors only and raises
`NetworkXError` for an absent id (no handler in the method).  The
`defaultdict(float)` accumulator is an association list in first-encounter
order.  The formatted output dicts carry `id`, `name`, `episode`, `score`
and a constant `reason`; only `(id, score)` determine selection and order,
and the embedding returns those pairs. -/

/-- `recommendations[neighbor] += weight`. -/
def addWeight (m : List (String × ℚ)) (k : String) (w : ℚ) :
    List (String × ℚ) :=
  if m.any (fun q => q.1 = k) then
    m.map (fun q => if q.1 = k then (q.1, q.2 + w) else q)
  else m ++ [(k, w)]

/-- `edge_data.get('weight', 0.5)`. -/
def edgeWeightOr (g : Graph) (u v : String) (dflt : ℚ) : ℚ :=
  match g.getEdgeData u v with
  | some d => d.weight
  | none => dflt

/-- The accumulation loop over `current_lens_ids`. -/
def recAccumLoop (g : Graph) (currentIds : List String) :
    List String → List (String × ℚ) → Except Unit (List (String × ℚ))
  | [], m => .ok m
  | lensId :: rest, m =>
    if !(g.hasNode lensId) then .error ()
    else recAccumLoop g currentIds rest
      ((g.successors lensId).foldl
        (fun m2 nb =>
          if currentIds.contains nb then m2
          else addWeight m2 nb (edgeWeightOr g lensId nb (1/2)))
        m)

/-- `get_lens_recommendations(current_lens_ids, limit=5)`. -/
def getLensRecommendations (g : Graph) (currentIds : List String)
    (limit : Nat := 5) : Except Unit (List (String × ℚ)) :=
  match recAccumLoop g currentIds currentIds [] with
  | .error e => .error e
  | .ok recs => .ok ((sortDesc (fun p => p.2) recs).take limit)

theorem mem_addWeight (m : List (String × ℚ)) (k : String) (w : ℚ)
    (x : String × ℚ) (hx : x ∈ addWeight m k w) :
    x.1 = k ∨ ∃ y ∈ m, x.1 = y.1 := by
  unfold addWeight at hx
  by_cases hk : m.any (fun q => q.1 = k) = true
  · rw [if_pos hk] at hx
    simp only [List.mem_map] at hx
    obtain ⟨q, hq, heq⟩ := hx
    by_cases hqk : q.1 = k
    · rw [if_pos hqk] at heq
      rw [← heq]
      exact Or.inl hqk
    · rw [if_neg hqk] at heq
      rw [← heq]
      exact Or.inr ⟨q, hq, rfl⟩
  · rw [if_neg hk] at hx
    rcases List.mem_append.mp hx with h1 | h2
    · exact Or.inr ⟨x, h1, rfl⟩
    · simp only [List.mem_singleton] at h2
      rw [h2]
      exact Or.inl rfl

/-- Every accumulated key is a successor of some queried id and is not
itself queried. -/
theorem recAccumLoop_keys (g : Graph) (currentIds : List String) :
    ∀ (ids : List String) (m : List (String × ℚ))
      (res : List (String × ℚ)),
      recAccumLoop g currentIds ids m = .ok res →
      ∀ x ∈ res, (∃ y ∈ m, x.1 = y.1) ∨
        ∃ i ∈ ids, x.1 ∈ g.successors i ∧ currentIds.contains x.1 = false := by
  intro ids
  induction ids with
  | nil =>
    intro m res hres x hx
    simp only [recAccumLoop] at hres
    cases hres
    exact Or.inl ⟨x, hx, rfl⟩
  | cons lensId rest ih =>
    intro m res hres x hx
    simp only [recAccumLoop] at hres
    by_cases habs : (!(g.hasNode lensId)) = true
    · rw [if_pos habs] at hres; exact absurd hres (by simp)
    · rw [if_neg habs] at hres
      rcases ih _ res hres x hx with ⟨y, hy, hxy⟩ | ⟨i, hi, hsucc, hni⟩
      · -- y is a key of the inner fold result: it is an old key of m or a
        -- fresh successor of lensId not in currentIds
        have fold : ∀ (nbs : List String) (m0 : List (String × ℚ)) (z : String × ℚ),
            z ∈ nbs.foldl
              (fun m2 nb =>
                if currentIds.contains nb then m2
                else addWeight m2 nb (edgeWeightOr g lensId nb (1/2)))
              m0 →
            (∃ y0 ∈ m0, z.1 = y0.1) ∨
              (z.1 ∈ nbs ∧ currentIds.contains z.1 = false) := by
          intro nbs
          induction nbs with
          | nil => intro m0 z hz; exact Or.inl ⟨z, hz, rfl⟩
          | cons nb nrest nih =>
            intro m0 z hz
            rw [List.foldl_cons] at hz
            by_cases hc : currentIds.contains nb = true
            · rw [if_pos hc] at hz
              rcases nih _ _ hz with h1 | ⟨h2, h3⟩
              · exact Or.inl h1
              · exact Or.inr ⟨List.mem_cons_of_mem _ h2, h3⟩
            · rw [if_neg hc] at hz
              rcases nih _ _ hz with ⟨y0, hy0, hzy⟩ | ⟨h2, h3⟩
              · rcases mem_addWeight _ _ _ _ hy0 with h4 | ⟨y1, hy1, hzy1⟩
                · refine Or.inr ⟨?_, ?_⟩
                  · rw [hzy, h4]; simp
                  · rw [hzy, h4]; simpa using hc
                · exact Or.inl ⟨y1, hy1, hzy.trans hzy1⟩
              · exact Or.inr ⟨List.mem_cons_of_mem _ h2, h3⟩
        rcases fold (g.successors lensId) m y hy with ⟨y0, hy0, hyy0⟩ | ⟨h2, h3⟩
        · exact Or.inl ⟨y0, hy0, hxy.trans hyy0⟩
        · refine Or.inr ⟨lensId, by simp, ?_, ?_⟩
          · rw [hxy]; exact h2
          · rw [hxy]; exact h3
      · exact Or.inr ⟨i, List.mem_cons_of_mem _ hi, hsucc, hni⟩

/-! ## Claim-side reference definitions

The following definitions follow the words of spec claims (not the code);
they exist only to be compared with the code embeddings above where a claim
and the code disagree. -/

/-- `if l.contains b then l else l ++ [b]`. -/
def addUniq (l : List String) (b : String) : List String :=
  if l.contains b then l else l ++ [b]

/-- Claim-side bridge finder: collects the interior nodes of simple paths
of *exactly 3 edges* (4 nodes) between each ordered pair, scores and
truncates as the code does.  (The code instead keeps 3-*node* / 2-edge
paths.) -/
def findBridgesClaim (g : Graph) (ids : List String) : List String :=
  let cands := (orderedPairs ids).foldl
    (fun acc pr =>
      if g.hasNode pr.1 && g.hasNode pr.2 then
        (simplePathsFrom g pr.2 3 [pr.1] pr.1).foldl
          (fun acc2 path =>
            match path with
            | [_, x, y, _] => addUniq (addUniq acc2 x) y
            | _ => acc2)
          acc
      else acc)
    []
  (((sortDesc (fun p => p.2)
      (cands.map (fun b => (b, bridgeScore g ids b)))).take 5).map
    (fun p => p.1))

/-- Claim-side journey loop: keeps shortest paths of at most 5 *edges*
(6 nodes).  (The code instead keeps paths with `len(path) <= 5`, i.e. at
most 4 edges.) -/
def journeysForClaim (g : Graph) (s : String) :
    List String → Except Unit (List (List String))
  | [] => .ok []
  | t :: rest =>
    match shortestPathW g s t with
    | .error e => .error e
    | .ok none => journeysForClaim g s rest
    | .ok (some p) =>
      match journeysForClaim g s rest with
      | .error e => .error e
      | .ok js => if p.length ≤ 6 then .ok (p :: js) else .ok js

/-- Claim-side `suggest_journey` with the 5-*edge* filter. -/
def suggestJourneyClaim (g : Graph) (startId targetConcept : String) :
    Except Unit (List String) :=
  let targets := targetLenses g targetConcept
  if targets.isEmpty then .ok []
  else
    match journeysForClaim g startId (targets.take 5) with
    | .error e => .error e
    | .ok js => .ok ((sortLen js).headD [])

/-- Claim-side recommender: neighbors in *either* direction (successors
and predecessors) of the queried ids, scored by the summed weights of the
connecting edges in both directions.  (The code iterates successors
only.) -/
def recommendClaim (g : Graph) (currentIds : List String) (limit : Nat) :
    List (String × ℚ) :=
  let nbs := (dedupFirst (currentIds.flatMap
    (fun i => g.successors i ++ g.predecessors i))).filter
    (fun nb => !(currentIds.contains nb))
  ((sortDesc (fun p => p.2)
    (nbs.map (fun nb => (nb,
      currentIds.foldl
        (fun s i =>
          (if g.hasEdge i nb then s + edgeWeight g i nb else s) +
            (if g.hasEdge nb i then edgeWeight g nb i else 0))
        0)))).take limit)

/-! ## Concrete test inputs for the claims -/

/-- Centrality fixture: a hub `H` with out-edges to `a`, `b`, `c` (high
degree, zero betweenness) and a chain `P1 → M → P2` (`M` has low degree but
is the only node any shortest path passes through).  The centrality scores
below are hand-computed for this graph, as raw counts (scaling does not
affect ranking). -/
def gCent : Graph :=
  { nodes := [("H", ⟨"H", none, "lens", "", []⟩), ("a", ⟨"a", none, "lens", "", []⟩),
              ("b", ⟨"b", none, "lens", "", []⟩), ("c", ⟨"c", none, "lens", "", []⟩),
              ("P1", ⟨"P1", none, "lens", "", []⟩), ("M", ⟨"M", none, "lens", "", []⟩),
              ("P2", ⟨"P2", none, "lens", "", []⟩)],
    edges := [("H", "a", ⟨1, "curated", ""⟩), ("H", "b", ⟨1, "curated", ""⟩),
              ("H", "c", ⟨1, "curated", ""⟩), ("P1", "M", ⟨1, "curated", ""⟩),
              ("M", "P2", ⟨1, "curated", ""⟩)] }

/-- Degree counts of `gCent`, in node order. -/
def degCent : List (String × ℚ) :=
  [("H", 3), ("a", 1), ("b", 1), ("c", 1), ("P1", 1), ("M", 2), ("P2", 1)]

/-- Betweenness counts of `gCent`: only `M` lies strictly inside a shortest
path (`P1 → M → P2`). -/
def betwCent : List (String × ℚ) :=
  [("H", 0), ("a", 0), ("b", 0), ("c", 0), ("P1", 0), ("M", 1), ("P2", 0)]

/-- Construction fixture for the precedence claim: a curated edge `B → A`
followed by a frame containing `A` and `B`. -/
def catC2 : List LensRec :=
  [⟨"A", "A", none, "lens", "", []⟩, ⟨"B", "B", none, "lens", "", []⟩]

def connsC2 : List ConnRec := [⟨"B", "A", 1, "curated", "why"⟩]

def framesC2 : List FrameRec := [⟨"f1", ["A", "B"]⟩]

def gC2 : Graph := buildGraph catC2 connsC2 framesC2

/-- Absent-node fixture: one node `N`; `Z` is absent. -/
def gC3 : Graph := { nodes := [("N", ⟨"N", none, "lens", "", []⟩)], edges := [] }

/-- Zero-weight fixture: the only edge `A → B` has weight 0, and `B`
matches the target concept `x`. -/
def gC4 : Graph :=
  { nodes := [("A", ⟨"A", none, "lens", "", []⟩), ("B", ⟨"B", none, "lens", "x", []⟩)],
    edges := [("A", "B", ⟨0, "curated", ""⟩)] }

/-! ## The claims -/

/-- C1, counterexample.  On a graph whose pagerank computation fails
(modelled by the `Except.error` parameter), `get_central_lenses('pagerank')`
returns exactly the degree-centrality ranking — byte-identical to a plain
`get_central_lenses('degree')` call, so no field distinguishes the
requested measure from the one actually used — and that ranking starts with
the high-degree hub `H`, not with `M`, the top node of the betweenness
ranking the claim requires. -/
theorem claimC1_counterexample :
    getCentralLenses gCent betwCent degCent (.ok []) (.error ()) "pagerank" =
      getCentralLenses gCent betwCent degCent (.ok []) (.error ()) "degree" ∧
    (getCentralLenses gCent betwCent degCent (.ok []) (.error ())
        "pagerank").map (fun p => p.1) = ["H", "M", "a", "b", "c", "P1", "P2"] ∧
    (sortDesc (fun p => p.2) betwCent).map (fun p => p.1) =
      ["M", "H", "a", "b", "c", "P1", "P2"] := by
  refine ⟨by decide, by decide, by decide⟩

/-- C1, amended.  When the pagerank computation fails,
`get_central_lenses('pagerank')` silently falls back to *degree* centrality
(not betweenness): its result is identical to the result of an explicit
degree request, so the caller receives no fallback indicator; the failure
itself is swallowed by the handler and never propagates (the embedding is a
total function). -/
theorem claimC1_pagerank_fallback_degree (g : Graph)
    (betweenness deg : List (String × ℚ))
    (eigen : Except Unit (List (String × ℚ))) (e : Unit)
    (pagerank : Except Unit (List (String × ℚ)))
    (hfail : pagerank = .error e) :
    getCentralLenses g betweenness deg eigen pagerank "pagerank" =
      getCentralLenses g betweenness deg eigen pagerank "degree" := by
  subst hfail
  simp +decide only [getCentralLenses, if_false, if_true]

/-- C1, witness: the amended theorem applied to the concrete fixture. -/
theorem claimC1_witness :
    getCentralLenses gCent betwCent degCent (.ok []) (.error ()) "pagerank" =
      getCentralLenses gCent betwCent degCent (.ok []) (.error ()) "degree" :=
  claimC1_pagerank_fallback_degree gCent betwCent degCent (.ok []) ()
    (.error ()) rfl

/-- C2, counterexample.  The guards of the frame/temporal/concept steps
check `has_edge(lens1, lens2)` in one direction only: after loading the
curated edge `B → A`, the frame pair `(A, B)` still adds the frame edge
`A → B`, although an edge between the pair already existed in the reverse
direction — the claim requires it to be silently dropped. -/
theorem claimC2_counterexample :
    (loadCurated (loadLenses catC2) connsC2).hasEdge "B" "A" = true ∧
    (gC2.getEdgeData "B" "A").map (fun d => d.etype) = some "curated" ∧
    (gC2.getEdgeData "A" "B").map (fun d => d.etype) = some "frame" := by
  refine ⟨by decide, by decide, by decide⟩

/-- C2, amended.  Each of the frame, temporal and concept steps adds an
edge for an ordered pair only if no edge exists in that *same direction*;
a lower-precedence relationship whose ordered pair already carries an edge
is silently dropped, and the existing edge's attributes are never merged or
overridden — but an edge in the opposite direction only does not prevent
the addition (shown by the counterexample).  Stated as: the guarded add is
a no-op on the forward direction when the forward edge exists and appends
exactly one edge otherwise, and all three steps preserve every existing
edge together with its attributes. -/
theorem claimC2_first_writer_wins :
    (∀ (g : Graph) (u v : String) (d : EdgeData),
      (g.hasEdge u v = true → g.addEdgeIfAbsent u v d = g) ∧
      (g.hasEdge u v = false →
        (g.addEdgeIfAbsent u v d).edges = g.edges ++ [(u, v, d)])) ∧
    (∀ (g : Graph) (frames : List FrameRec) (u v : String),
      g.hasEdge u v = true →
      (loadFrames g frames).hasEdge u v = true ∧
        (loadFrames g frames).getEdgeData u v = g.getEdgeData u v) ∧
    (∀ (g : Graph) (u v : String),
      g.hasEdge u v = true →
      (temporalStep g).hasEdge u v = true ∧
        (temporalStep g).getEdgeData u v = g.getEdgeData u v) ∧
    (∀ (g : Graph) (u v : String),
      g.hasEdge u v = true →
      (conceptStep g).hasEdge u v = true ∧
        (conceptStep g).getEdgeData u v = g.getEdgeData u v) := by
  refine ⟨?_, loadFrames_preserves, temporalStep_preserves, conceptStep_preserves⟩
  intro g u v d
  constructor
  · intro h
    unfold Graph.addEdgeIfAbsent
    rw [if_pos h]
  · intro h
    rcases addEdgeIfAbsent_edges g u v d with h1 | ⟨h1, _⟩
    · exfalso
      unfold Graph.addEdgeIfAbsent at h1
      rw [if_neg (by simp [h]), Graph.addEdge, if_neg (by simp [h])] at h1
      have : g.edges.length = g.edges.length + 1 := by
        conv_lhs => rw [← h1]
        simp
      omega
    · exact h1

/-- C2, witness: the amended theorem applied at the fixture: the curated
edge `B → A` survives the frame step with unchanged attributes. -/
theorem claimC2_witness :
    (loadFrames (loadCurated (loadLenses catC2) connsC2) framesC2).hasEdge
        "B" "A" = true ∧
      (loadFrames (loadCurated (loadLenses catC2) connsC2) framesC2).getEdgeData
          "B" "A" =
        (loadCurated (loadLenses catC2) connsC2).getEdgeData "B" "A" :=
  claimC2_first_writer_wins.2.1 (loadCurated (loadLenses catC2) connsC2)
    framesC2 "B" "A" (by decide)

/-- C3, counterexample.  For the absent id `Z`, `find_contrasts` and
`get_lens_neighborhood` both call `graph.neighbors(Z)` outside any
`try`/`except`, so the `NetworkXError` propagates instead of an empty
result being returned. -/
theorem claimC3_counterexample :
    findContrasts gC3 "Z" = .error () ∧
      getLensNeighborhood gC3 "Z" 2 = .error () := by
  refine ⟨by decide, by decide⟩

/-- C3, amended.  For an id absent from the graph, `find_path` (either
operand) and `find_bridges` return an empty result because their exception
handlers swallow the lookup failure, but `find_contrasts` raises, and
`get_lens_neighborhood` raises for every radius ≥ 1 (only a non-positive
radius returns an empty mapping without touching the adjacency). -/
theorem claimC3_absent_node (g : Graph) (s x : String) (m r : Nat)
    (hx : g.hasNode x = false) :
    findPath g x s m = [] ∧ findPath g s x m = [] ∧
    findBridges g [s, x] = [] ∧
    findContrasts g x = .error () ∧
    (1 ≤ r → getLensNeighborhood g x r = .error ()) := by
  refine ⟨?_, ?_, ?_, ?_, ?_⟩
  · unfold findPath
    rw [if_neg (by simp [hx])]
  · unfold findPath
    rw [if_neg (by simp [hx])]
  · unfold findBridges bridgeCandidates
    simp only [orderedPairs, List.map_nil, List.append_nil, List.map_cons,
      List.foldl_cons, List.foldl_nil]
    rw [if_neg (by simp [hx])]
    rfl
  · unfold findContrasts
    rw [if_pos (by simp [hx])]
  · intro hr
    unfold getLensNeighborhood
    rw [if_pos (by simp [hx, hr])]

/-- C3, witness: the amended theorem applied at the fixture. -/
theorem claimC3_witness :
    findPath gC3 "Z" "N" 4 = [] ∧ findPath gC3 "N" "Z" 4 = [] ∧
    findBridges gC3 ["N", "Z"] = [] ∧
    findContrasts gC3 "Z" = .error () ∧
    (1 ≤ 2 → getLensNeighborhood gC3 "Z" 2 = .error ()) :=
  claimC3_absent_node gC3 "N" "Z" 4 2 (by decide)

/-- C4.  The edge cost is `1 / d.get('weight', 0.1)`: `0.1` is only a
default for a *missing* weight attribute, not a floor.  On `gC4`, whose
only edge carries `weight == 0`, the target scan finds `B`, Dijkstra
evaluates the edge `A → B`, and the division by zero raises an uncaught
`ZeroDivisionError` (only `NetworkXNoPath` is handled), modelled by
`Except.error`. -/
theorem claimC4_zero_weight_division :
    (gC4.getEdgeData "A" "B").map (fun d => d.weight) = some 0 ∧
      suggestLensJourney gC4 "A" "x" = .error () := by
  refine ⟨by decide, by decide⟩

/-- C5.  `find_path` scores each enumerated simple path by the sum of its
edge weights and returns them sorted by descending score, truncated to the
top 3; every returned path is a simple directed path from source to target
with at most `max_length` edges.  On the two-edge fixture the unique path
`[A, B, C]` is returned with score 0.9 + 0.9 = 1.8. -/
theorem claimC5_path_scoring :
    (∀ (g : Graph) (s t : String) (m : Nat),
      (findPath g s t m).Sorted (fun a b => pathWeight g b ≤ pathWeight g a)) ∧
    (∀ (g : Graph) (s t : String) (m : Nat), (findPath g s t m).length ≤ 3) ∧
    (∀ (g : Graph) (s t : String) (m : Nat) (p : List String),
      p ∈ findPath g s t m → IsSimplePath g s t m p) ∧
    findPath gPathScore "A" "C" 4 = [["A", "B", "C"]] ∧
    pathWeight gPathScore ["A", "B", "C"] = 9/5 := by
  refine ⟨findPath_sorted, findPath_length_le, findPath_mem, by decide, ?_⟩
  simp +decide only [pathWeight, gPathScore, Graph.getEdgeData, List.find?]
  norm_num

/-- C5, witness: the membership conjunct applied to the concrete result. -/
theorem claimC5_witness : IsSimplePath gPathScore "A" "C" 4 ["A", "B", "C"] :=
  claimC5_path_scoring.2.2.1 gPathScore "A" "C" 4 ["A", "B", "C"]
    (by rw [claimC5_path_scoring.2.2.2.1]; exact List.mem_singleton.mpr rfl)

/-- Bridge fixture refuting the 3-edge reading: the only route from `A`
to `B` is the 3-edge path `A → P → Q → B`. -/
def gB3 : Graph :=
  { nodes := [("A", ⟨"A", none, "lens", "", []⟩), ("P", ⟨"P", none, "lens", "", []⟩),
              ("Q", ⟨"Q", none, "lens", "", []⟩), ("B", ⟨"B", none, "lens", "", []⟩)],
    edges := [("A", "P", ⟨1, "curated", ""⟩), ("P", "Q", ⟨1, "curated", ""⟩),
              ("Q", "B", ⟨1, "curated", ""⟩)] }

/-- Bridge fixture for the corrected statement: `A → X → B`. -/
def gB2 : Graph :=
  { nodes := [("A", ⟨"A", none, "lens", "", []⟩), ("X", ⟨"X", none, "lens", "", []⟩),
              ("B", ⟨"B", none, "lens", "", []⟩)],
    edges := [("A", "X", ⟨1, "curated", ""⟩), ("X", "B", ⟨1, "curated", ""⟩)] }

/-- C6, counterexample.  The code keeps paths with `len(path) == 3`, i.e.
3 *nodes* (2 edges, one intermediate node), not 3 *edges*: on `gB3`, whose
only `A`–`B` route has exactly 3 edges, `find_bridges(['A','B'])` is empty,
while the claim's procedure (interior nodes of 3-edge paths, scored and
truncated the same way) returns `P` among its bridges. -/
theorem claimC6_counterexample :
    findBridges gB3 ["A", "B"] = [] ∧ "P" ∈ findBridgesClaim gB3 ["A", "B"] := by
  refine ⟨by decide, ?_⟩
  simp +decide only [findBridgesClaim, orderedPairs, simplePathsFrom, addUniq,
    bridgeScore, edgeWeight, Graph.getEdgeData, Graph.hasNode, Graph.hasEdge,
    Graph.successors, List.find?, List.foldl, List.filter, List.map,
    List.flatMap, List.contains, List.elem, gB3, sortDesc, insertDesc,
    List.take, List.append_nil, List.nil_append, List.cons_append]
  norm_num

theorem findBridges_two_hop (g : Graph) (ids : List String) (b : String)
    (hb : b ∈ findBridges g ids) :
    ∃ pr ∈ orderedPairs ids, g.hasEdge pr.1 b = true ∧
      g.hasEdge b pr.2 = true ∧ b ≠ pr.1 ∧ b ≠ pr.2 := by
  obtain ⟨pr, hpr, p, hp, x, z, hxz⟩ := mem_findBridges g ids b hb
  obtain ⟨hh, hl, hc, hn, _, _⟩ :=
    simplePathsFrom_spec g pr.2 3 [pr.1] pr.1 (by simp) p hp
  subst hxz
  simp only [List.head?_cons, Option.some.injEq] at hh
  have hz : z = pr.2 := by
    simpa using hl
  have hchain : g.hasEdge x b = true ∧ g.hasEdge b z = true := by
    rw [List.chain'_cons, List.chain'_cons] at hc
    exact ⟨hc.1, hc.2.1⟩
  have hnodup : b ≠ x ∧ b ≠ z := by
    simp only [List.nodup_cons, List.mem_cons, List.mem_singleton] at hn
    refine ⟨?_, ?_⟩
    · intro hbx; exact hn.1 (Or.inl hbx.symm)
    · intro hbz; exact hn.2.1 (by simp [hbz])
  subst hh; subst hz
  exact ⟨pr, hpr, hchain.1, hchain.2, hnodup.1, hnodup.2⟩

/-- C6, amended.  `find_bridges` collects, for every ordered pair `(a, b)`
of the queried ids (`a` before `b` in the list), the middle nodes of
directed simple paths of exactly *2 edges* (one intermediate node)
`a → x → b`; it scores each candidate by the summed weights of edges in
either direction linking it to the queried ids, returns at most 5 of them
in descending score order, and on the fixture with curated edges `A → X`
and `X → B` it includes `X`. -/
theorem claimC6_bridges :
    (∀ (g : Graph) (ids : List String) (b : String), b ∈ findBridges g ids →
      ∃ pr ∈ orderedPairs ids, g.hasEdge pr.1 b = true ∧
        g.hasEdge b pr.2 = true ∧ b ≠ pr.1 ∧ b ≠ pr.2) ∧
    (∀ (g : Graph) (ids : List String), (findBridges g ids).length ≤ 5) ∧
    (∀ (g : Graph) (ids : List String),
      ((sortDesc (fun p => p.2)
        ((bridgeCandidates g ids).map
          (fun b => (b, bridgeScore g ids b)))).take 5).Sorted
        (fun a b => b.2 ≤ a.2)) ∧
    "X" ∈ findBridges gB2 ["A", "B"] := by
  refine ⟨findBridges_two_hop, findBridges_length_le, ?_, by decide⟩
  intro g ids
  exact (sortDesc_sorted _ _).sublist (List.take_sublist _ _)

/-- C6, witness: the two-hop conjunct applied to the concrete bridge. -/
theorem claimC6_witness :
    ∃ pr ∈ orderedPairs ["A", "B"], gB2.hasEdge pr.1 "X" = true ∧
      gB2.hasEdge "X" pr.2 = true ∧ "X" ≠ pr.1 ∧ "X" ≠ pr.2 :=
  claimC6_bridges.1 gB2 ["A", "B"] "X" claimC6_bridges.2.2.2

/-- Six lenses sharing the single tag `t`. -/
def cat6 : List LensRec :=
  [⟨"c1", "c1", none, "lens", "", ["t"]⟩, ⟨"c2", "c2", none, "lens", "", ["t"]⟩,
   ⟨"c3", "c3", none, "lens", "", ["t"]⟩, ⟨"c4", "c4", none, "lens", "", ["t"]⟩,
   ⟨"c5", "c5", none, "lens", "", ["t"]⟩, ⟨"c6", "c6", none, "lens", "", ["t"]⟩]

/-- Three lenses sharing the single tag `t`. -/
def cat3 : List LensRec :=
  [⟨"d1", "d1", none, "lens", "", ["t"]⟩, ⟨"d2", "d2", none, "lens", "", ["t"]⟩,
   ⟨"d3", "d3", none, "lens", "", ["t"]⟩]

/-- The graph reaching the concept step on the `cat3` input. -/
def gW7 : Graph := temporalStep (loadFrames (loadCurated (loadLenses cat3) []) [])

/-- C7.  For every tag shared by 2–5 concepts and every pair of them with
no edge in either direction, the concept step adds an edge of kind
*concept* with weight 0.4 between the pair (concretely: the forward edge of
the processed ordered pair); conversely every edge present after the
concept step is an old edge or arises from an ordered pair sharing a
2–5-concept tag — in particular a tag shared by 6 or more concepts
contributes nothing, witnessed by the 6-lens catalog building to a graph
with no edges at all. -/
theorem claimC7_rare_tag :
    (∀ (g : Graph) (pr : String × List String) (u v : String),
      pr ∈ conceptMap g → 2 ≤ pr.2.length → pr.2.length ≤ 5 →
      (u, v) ∈ orderedPairs pr.2 →
      g.hasEdge u v = false → g.hasEdge v u = false →
      (conceptStep g).hasEdge u v = true ∧
        (conceptStep g).getEdgeData u v = some ⟨2/5, "concept", ""⟩) ∧
    (∀ (g : Graph) (u v : String), (conceptStep g).hasEdge u v = true →
      g.hasEdge u v = true ∨
        ∃ pr ∈ conceptMap g, (2 ≤ pr.2.length ∧ pr.2.length ≤ 5) ∧
          (u, v) ∈ orderedPairs pr.2) ∧
    (buildGraph cat6 [] []).edges = [] := by
  refine ⟨?_, ?_, by decide⟩
  · intro g pr u v hpr h2 h5 huv hforward _
    have hEdge := conceptStep_adds g pr hpr ⟨h2, h5⟩ u v huv
    refine ⟨hEdge, ?_⟩
    obtain ⟨d, hd, hmem⟩ := hasEdge_exists_data _ u v hEdge
    rcases conceptStep_edges_origin g (u, v, d) hmem with h1 | ⟨hdata, _⟩
    · exact absurd (hasEdge_of_mem_edges g u v d h1) (by simp [hforward])
    · rw [hd]
      exact congrArg some hdata
  · intro g u v h
    obtain ⟨d, _, hmem⟩ := hasEdge_exists_data _ u v h
    rcases conceptStep_edges_origin g (u, v, d) hmem with h1 | ⟨_, pr, hpr, hrare, hpair⟩
    · exact Or.inl (hasEdge_of_mem_edges g u v d h1)
    · exact Or.inr ⟨pr, hpr, hrare, by simpa using hpair⟩

/-- C7, witness: the positive conjunct applied to the 3-lens fixture. -/
theorem claimC7_witness :
    (conceptStep gW7).hasEdge "d1" "d2" = true ∧
      (conceptStep gW7).getEdgeData "d1" "d2" = some ⟨2/5, "concept", ""⟩ :=
  claimC7_rare_tag.1 gW7 ("t", ["d1", "d2", "d3"]) "d1" "d2"
    (by decide) (by decide) (by decide) (by decide) (by decide) (by decide)

/-- Every journey kept by the collection loop has at most 5 nodes. -/
theorem journeysFor_len (g : Graph) (s : String) :
    ∀ (ts : List String) (js : List (List String)),
      journeysFor g s ts = .ok js → ∀ j ∈ js, j.length ≤ 5 := by
  intro ts
  induction ts with
  | nil =>
    intro js h j hj
    simp only [journeysFor] at h
    cases h
    simp at hj
  | cons t rest ih =>
    intro js h j hj
    simp only [journeysFor] at h
    cases hsp : shortestPathW g s t with
    | error e => rw [hsp] at h; exact absurd h (by simp)
    | ok o =>
      rw [hsp] at h
      cases o with
      | none => exact ih js h j hj
      | some p =>
        cases hrec : journeysFor g s rest with
        | error e => rw [hrec] at h; exact absurd h (by simp)
        | ok js0 =>
          rw [hrec] at h
          dsimp only at h
          by_cases hlen : p.length ≤ 5
          · rw [if_pos hlen] at h
            cases h
            rcases List.mem_cons.mp hj with rfl | hj2
            · exact hlen
            · exact ih js0 hrec j hj2
          · rw [if_neg hlen] at h
            cases h
            exact ih _ hrec j hj

/-- Chain fixture of 6 nodes (5 edges) whose last node matches `goal`. -/
def gJ6 : Graph :=
  { nodes := [("a1", ⟨"a1", none, "lens", "", []⟩), ("a2", ⟨"a2", none, "lens", "", []⟩),
              ("a3", ⟨"a3", none, "lens", "", []⟩), ("a4", ⟨"a4", none, "lens", "", []⟩),
              ("a5", ⟨"a5", none, "lens", "", []⟩), ("a6", ⟨"a6", none, "lens", "goal", []⟩)],
    edges := [("a1", "a2", ⟨1, "curated", ""⟩), ("a2", "a3", ⟨1, "curated", ""⟩),
              ("a3", "a4", ⟨1, "curated", ""⟩), ("a4", "a5", ⟨1, "curated", ""⟩),
              ("a5", "a6", ⟨1, "curated", ""⟩)] }

/-- Chain fixture of 5 nodes (4 edges) whose last node matches `goal`. -/
def gJ5 : Graph :=
  { nodes := [("b1", ⟨"b1", none, "lens", "", []⟩), ("b2", ⟨"b2", none, "lens", "", []⟩),
              ("b3", ⟨"b3", none, "lens", "", []⟩), ("b4", ⟨"b4", none, "lens", "", []⟩),
              ("b5", ⟨"b5", none, "lens", "goal", []⟩)],
    edges := [("b1", "b2", ⟨1, "curated", ""⟩), ("b2", "b3", ⟨1, "curated", ""⟩),
              ("b3", "b4", ⟨1, "curated", ""⟩), ("b4", "b5", ⟨1, "curated", ""⟩)] }

/-- C8, counterexample.  The code keeps paths with `len(path) <= 5`, i.e.
at most 5 *nodes* (4 edges), not 5 edges: on the 6-node chain the unique
journey has exactly 5 edges, the code returns an empty journey, while the
claim's 5-*edge* filter returns the full chain. -/
theorem claimC8_counterexample :
    suggestLensJourney gJ6 "a1" "goal" = .ok [] ∧
      suggestJourneyClaim gJ6 "a1" "goal" =
        .ok ["a1", "a2", "a3", "a4", "a5", "a6"] := by
  refine ⟨by decide, by decide⟩

/-- C8, amended.  `suggest_lens_journey` keeps only candidate shortest
paths of at most 4 edges (5 nodes), returns the shortest surviving path
(fewest nodes, first found on ties), and an empty result when no candidate
survives; a 4-edge chain is returned whole. -/
theorem claimC8_journey_bound :
    (∀ (g : Graph) (s tc : String) (p : List String),
      suggestLensJourney g s tc = .ok p → p = [] ∨ p.length ≤ 5) ∧
    (∀ (g : Graph) (s tc : String) (p j : List String)
      (js : List (List String)),
      journeysFor g s ((targetLenses g tc).take 5) = .ok js → j ∈ js →
      suggestLensJourney g s tc = .ok p → p.length ≤ j.length) ∧
    suggestLensJourney gJ5 "b1" "goal" = .ok ["b1", "b2", "b3", "b4", "b5"] := by
  refine ⟨?_, ?_, by decide⟩
  · intro g s tc p h
    unfold suggestLensJourney at h
    by_cases hemp : (targetLenses g tc).isEmpty = true
    · rw [if_pos hemp] at h
      cases h
      exact Or.inl rfl
    · rw [if_neg hemp] at h
      cases hjf : journeysFor g s ((targetLenses g tc).take 5) with
      | error e => rw [hjf] at h; exact absurd h (by simp)
      | ok js =>
        rw [hjf] at h
        cases h
        cases hs : sortLen js with
        | nil => exact Or.inl rfl
        | cons q rest =>
          refine Or.inr ?_
          have hq : q ∈ js := mem_sortLen js q (by rw [hs]; simp)
          exact journeysFor_len g s _ js hjf q hq
  · intro g s tc p j js hjf hj h
    unfold suggestLensJourney at h
    by_cases hemp : (targetLenses g tc).isEmpty = true
    · exfalso
      have hnil : targetLenses g tc = [] := by
        simpa [List.isEmpty_iff] using hemp
      rw [hnil] at hjf
      simp only [List.take_nil, journeysFor] at hjf
      cases hjf
      simp at hj
    · rw [if_neg hemp, hjf] at h
      cases h
      cases hs : sortLen js with
      | nil =>
        exfalso
        have hjmem : j ∈ sortLen js := sortLen_mem_of js j hj
        rw [hs] at hjmem
        simp at hjmem
      | cons q rest =>
        have hjmem : j ∈ sortLen js := sortLen_mem_of js j hj
        have hsort := sortLen_sorted js
        rw [hs, List.sorted_cons] at hsort
        rw [hs] at hjmem
        rcases List.mem_cons.mp hjmem with rfl | hjr
        · simp
        · exact hsort.1 j hjr

/-- C8, witness: the two bounds applied to the 4-edge chain. -/
theorem claimC8_witness :
    ((["b1", "b2", "b3", "b4", "b5"] : List String) = [] ∨
      (["b1", "b2", "b3", "b4", "b5"] : List String).length ≤ 5) ∧
    (["b1", "b2", "b3", "b4", "b5"] : List String).length ≤
      (["b1", "b2", "b3", "b4", "b5"] : List String).length :=
  ⟨claimC8_journey_bound.1 gJ5 "b1" "goal" ["b1", "b2", "b3", "b4", "b5"]
      claimC8_journey_bound.2.2,
    claimC8_journey_bound.2.1 gJ5 "b1" "goal" ["b1", "b2", "b3", "b4", "b5"]
      ["b1", "b2", "b3", "b4", "b5"] [["b1", "b2", "b3", "b4", "b5"]]
      (by decide) (by decide) claimC8_journey_bound.2.2⟩

/-- Recommendation fixture: only an incoming edge `B → A`. -/
def gR : Graph :=
  { nodes := [("A", ⟨"A", none, "lens", "", []⟩), ("B", ⟨"B", none, "lens", "", []⟩)],
    edges := [("B", "A", ⟨1, "curated", ""⟩)] }

/-- Recommendation fixture: an outgoing edge `A → B`. -/
def gRw : Graph :=
  { nodes := [("A", ⟨"A", none, "lens", "", []⟩), ("B", ⟨"B", none, "lens", "", []⟩)],
    edges := [("A", "B", ⟨1, "curated", ""⟩)] }

/-- C9, counterexample.  `get_lens_recommendations` iterates
`graph.neighbors(lens_id)` — successors only: on `gR`, where `B` is
connected to the queried `A` by an incoming edge only, the code recommends
nothing, while the claim's either-direction accumulation recommends `B`. -/
theorem claimC9_counterexample :
    getLensRecommendations gR ["A"] 5 = .ok [] ∧
      (recommendClaim gR ["A"] 5).map (fun p => p.1) = ["B"] := by
  refine ⟨by decide, by decide⟩

/-- C9, amended.  Every recommendation is a *successor* (outgoing neighbor
only) of some queried id and is not itself queried; the result is sorted
by descending accumulated weight and truncated to `limit`. -/
theorem claimC9_recommendations :
    (∀ (g : Graph) (ids : List String) (lim : Nat)
      (res : List (String × ℚ)) (x : String × ℚ),
      getLensRecommendations g ids lim = .ok res → x ∈ res →
      (∃ i ∈ ids, x.1 ∈ g.successors i) ∧ ids.contains x.1 = false) ∧
    (∀ (g : Graph) (ids : List String) (lim : Nat)
      (res : List (String × ℚ)),
      getLensRecommendations g ids lim = .ok res →
      res.length ≤ lim ∧ res.Sorted (fun a b => b.2 ≤ a.2)) := by
  constructor
  · intro g ids lim res x hres hx
    unfold getLensRecommendations at hres
    cases hacc : recAccumLoop g ids ids [] with
    | error e => rw [hacc] at hres; exact absurd hres (by simp)
    | ok recs =>
      rw [hacc] at hres
      cases hres
      have h1 : x ∈ sortDesc (fun p => p.2) recs := List.mem_of_mem_take hx
      have h2 : x ∈ recs := mem_sortDesc _ _ _ h1
      rcases recAccumLoop_keys g ids ids [] recs hacc x h2 with ⟨y, hy, _⟩ | ⟨i, hi, hs, hn⟩
      · simp at hy
      · exact ⟨⟨i, hi, hs⟩, hn⟩
  · intro g ids lim res hres
    unfold getLensRecommendations at hres
    cases hacc : recAccumLoop g ids ids [] with
    | error e => rw [hacc] at hres; exact absurd hres (by simp)
    | ok recs =>
      rw [hacc] at hres
      cases hres
      exact ⟨List.length_take_le _ _,
        (sortDesc_sorted _ _).sublist (List.take_sublist _ _)⟩

/-- C9, witness: the key characterization applied to the outgoing-edge
fixture, where `B` is recommended from `A`. -/
theorem claimC9_witness :
    (∃ i ∈ ["A"], "B" ∈ gRw.successors i) ∧ (["A"].contains "B") = false :=
  claimC9_recommendations.1 gRw ["A"] 5 [("B", 1)] ("B", 1)
    (by decide) (by decide)

/-- Neighborhood fixture: one outgoing edge `A → B`. -/
def gN : Graph :=
  { nodes := [("A", ⟨"A", none, "lens", "", []⟩), ("B", ⟨"B", none, "lens", "", []⟩)],
    edges := [("A", "B", ⟨1, "curated", ""⟩)] }

/-- Neighborhood fixture: only an incoming edge `C → A`. -/
def gInc : Graph :=
  { nodes := [("A", ⟨"A", none, "lens", "", []⟩), ("C", ⟨"C", none, "lens", "", []⟩)],
    edges := [("C", "A", ⟨1, "curated", ""⟩)] }

/-- C10.  The neighborhood BFS follows outgoing (successor) edges only:
every returned id is forward-reachable from the start within `radius`
edges; a node that is not forward-reachable — such as one connected to the
start solely by incoming edges — never appears, for any radius (concretely,
`C → A` yields an empty neighborhood of `A` even at radius 5). -/
theorem claimC10_neighborhood_outgoing :
    (∀ (g : Graph) (lensId : String) (radius : Nat)
      (res : List (String × List String)) (x : String),
      getLensNeighborhood g lensId radius = .ok res → x ∈ kindMembers res →
      reachWithin g radius lensId x) ∧
    (∀ (g : Graph) (lensId : String) (radius : Nat)
      (res : List (String × List String)) (x : String),
      getLensNeighborhood g lensId radius = .ok res →
      ¬ reachWithin g radius lensId x → x ∉ kindMembers res) ∧
    getLensNeighborhood gInc "A" 5 = .ok [] := by
  refine ⟨fun g l r res x hres hx => getLensNeighborhood_reach g l r res hres x hx,
    ?_, by decide⟩
  intro g l r res x hres hnr hx
  exact hnr (getLensNeighborhood_reach g l r res hres x hx)

/-- C10, witness: the reachability conjunct applied to `A → B`. -/
theorem claimC10_witness : reachWithin gN 2 "A" "B" :=
  claimC10_neighborhood_outgoing.1 gN "A" 2 [("curated", ["B"])] "B"
    (by decide) (by decide)

end LensGraph
